import Mathlib

/-!
# Verification of the `json-osi` inference core

Shallow embedding of the JSON schema-inference engine:
the evidence lattice `U` with its per-kind constraint records
(`src/inference.rs`, `src/inference/{num,str,arr,obj}.rs`), the `observe`
function, the `join` (least upper bound) operator, the tuple decision
`decide_tuple` / `tuple_min_items_arr`, and the normalized-IR builder
`normalize_to_norm_consume` (`src/norm_ir.rs`).

Machine doubles are modelled as rationals (`serde_json` numbers are finite:
`serde_json::Number` cannot represent NaN or infinities, and IEEE-754
ordering/min/max on finite doubles agrees with the rational order).
`u64`/`i64` counters are modelled as `Nat`/`Int`; none of the counters can
overflow in any statement below, so wrap-around is not modelled.
`BTreeSet` becomes a strictly ascending list (the iteration order the B-tree
guarantees); `BTreeMap<String, FieldC>` becomes a list of
`FieldC` records (key inlined) kept strictly sorted by key, which is the
iteration order the B-tree guarantees.  Rust's byte-wise `String` ordering
coincides with the code-point lexicographic ordering used here because UTF-8
is order-preserving.
-/

namespace JsonOsi

/-- A `serde_json` number: a non-negative integer stored as `u64`, a negative
integer stored as `i64`, or a finite double.  `serde_json::Number` can hold no
NaN and no infinity, so finite doubles are modelled as rationals. -/
inductive JNum where
  | posInt (n : Nat)
  | negInt (i : Int)
  | float (q : ℚ)
deriving DecidableEq

/-- A parsed JSON document (`serde_json::Value`).  Object maps are
`BTreeMap<String, Value>`: association lists whose keys are strictly sorted
(well-formedness is captured by `wfJson` below). -/
inductive Json where
  | null
  | bool (b : Bool)
  | num (n : JNum)
  | str (s : String)
  | arr (xs : List Json)
  | obj (m : List (String × Json))

-- ----------------------------- String ordering ---------------------------- --

/-- Lexicographic comparison of character lists.  Rust compares `String`s by
their UTF-8 bytes; byte-wise lexicographic order on UTF-8 coincides with
code-point lexicographic order, which is this comparison. -/
def charListLt : List Char → List Char → Bool
  | [], [] => false
  | [], _ :: _ => true
  | _ :: _, [] => false
  | c :: cs, d :: ds => c < d || (c = d && charListLt cs ds)

/-- The Rust `String` total order (`Ord` on `String`). -/
def strLt (a b : String) : Bool := charListLt a.data b.data

/-- The total order on the modelled doubles (`Ord` on `OrderedFloat<f64>`,
restricted to the finite doubles represented as rationals). -/
def qLt (a b : ℚ) : Bool := a < b

/-- Keys of an object literal are strictly increasing (the `BTreeMap` invariant). -/
def keysSorted : List (String × Json) → Bool
  | [] => true
  | [_] => true
  | (k1, _) :: (k2, v2) :: r => strLt k1 k2 && keysSorted ((k2, v2) :: r)

mutual

/-- Well-formedness of a parsed JSON value: every object map satisfies the
`BTreeMap` sorted-unique-keys invariant.  `serde_json` guarantees this for
every parsed document. -/
def wfJson : Json → Bool
  | .null => true
  | .bool _ => true
  | .num _ => true
  | .str _ => true
  | .arr xs => wfJsonList xs
  | .obj m => keysSorted m && wfJsonPairs m

def wfJsonList : List Json → Bool
  | [] => true
  | x :: xs => wfJson x && wfJsonList xs

def wfJsonPairs : List (String × Json) → Bool
  | [] => true
  | (_, v) :: r => wfJson v && wfJsonPairs r

end

-- ------------------------------- Policy ---------------------------------- --

/-- Literal cap for string literal sets (`MAX_STR_LITS` in `src/inference.rs`). -/
def MAX_STR_LITS : Nat := 64

/-- Literal cap for number literal sets (`MAX_NUM_LITS` in `src/inference.rs`). -/
def MAX_NUM_LITS : Nat := 64

/-- Small human-ish enum threshold (`STRING_ENUM_MAX`). -/
def STRING_ENUM_MAX : Nat := 8

/-- Maximum literal length for enums (`STRING_ENUM_MAX_LEN`). -/
def STRING_ENUM_MAX_LEN : Nat := 16

/-- Minimum distinct literals before regex synthesis (`GREX_MIN_SAMPLES`). -/
def GREX_MIN_SAMPLES : Nat := 3

/-- Hard cap on the length of a generated regex (`GREX_MAX_PATTERN_LEN`). -/
def GREX_MAX_PATTERN_LEN : Nat := 512

/-- Cap on top-level alternations of a generated regex (`GREX_MAX_ALTS`). -/
def GREX_MAX_ALTS : Nat := 64

/-- Largest `i64` value, used by the `as_i64` branch of `observe_value`. -/
def I64_MAX : Nat := 9223372036854775807

/-- Smallest `i64` value. -/
def I64_MIN : Int := -9223372036854775808

/-- Modelled from the spec: the compile-time policy flags `ENABLE_STRING_ENUMS`
and `ENABLE_GREX` (spec section 6) which `src/norm_ir.rs` references as
`crate::inference::ENABLE_STRING_ENUMS` / `ENABLE_GREX` but which are absent
from `src/`, together with the two external learners used by
`src/inference/str.rs`: `grexBuild` stands for grex 1.4.5
`RegExpBuilder::from(&lits).build()` (an opaque total function from the sorted
literal list to an anchored regex) and `strHash` for the `DefaultHasher`
rolling hash over the sorted trimmed literals.  All theorems below quantify
over this record, so they hold for every flag setting and every learner. -/
structure Policy where
  enable_string_enums : Bool
  enable_grex : Bool
  grexBuild : List String → String
  strHash : List String → Nat

-- ------------------------- Ordered sets (BTreeSet) ------------------------ --

/-- Ordered insertion without duplication: `BTreeSet::insert` relative to a
strict comparison `lt`.  On a strictly ascending list this keeps the list
strictly ascending and is a no-op when the element is already present. -/
def insSet (lt : α → α → Bool) (x : α) : List α → List α
  | [] => [x]
  | t :: ts =>
    if lt x t then x :: t :: ts
    else if lt t x then t :: insSet lt x ts
    else t :: ts

/-- Union of two ordered sets (`&a | &b` on `BTreeSet`s): insert every element
of the first into the second. -/
def unionSet (lt : α → α → Bool) (a b : List α) : List α :=
  a.foldr (insSet lt) b

/-- Strict ascending-order invariant of a `BTreeSet`'s element list. -/
def sortedSet (lt : α → α → Bool) : List α → Bool
  | [] => true
  | [_] => true
  | x :: y :: r => lt x y && sortedSet lt (y :: r)

-- --------------------------- Constraint records --------------------------- --

/-- Numeric evidence (`NumC` in `src/inference/num.rs` / `src/inference.rs`).
The literal set `BTreeSet<OrderedFloat<f64>>` is its strictly ascending
element list. -/
structure NumC where
  lits_f64 : List ℚ
  min_f64 : ℚ
  max_f64 : ℚ
  saw_int : Bool
  saw_uint : Bool
  saw_float : Bool
deriving DecidableEq

/-- String evidence (`StrC` in `src/inference/str.rs`): literal set (the
strictly ascending element list of the `BTreeSet<String>`), URI flag, the
regex synthesized during normalize, and the cache key of the last grex run.
The hash component of the key is produced by `Policy.strHash`. -/
structure StrC where
  lits : List String
  is_uri : Bool
  pattern_synth : Option String
  grex_cache_key : Option (Nat × Nat × Nat)
deriving DecidableEq

/-- Prefix test on character lists (UTF-8 byte prefixes of valid strings
coincide with character-list prefixes). -/
def listIsPrefixOf : List Char → List Char → Bool
  | [], _ => true
  | _ :: _, [] => false
  | c :: cs, d :: ds => c = d && listIsPrefixOf cs ds

/-- Rust's `str::starts_with` on string patterns. -/
def strStartsWith (s pre : String) : Bool := listIsPrefixOf pre.data s.data

/-- URI prefix predicate (`looks_like_uri`). -/
def looks_like_uri (s : String) : Bool :=
  strStartsWith s "http://" || strStartsWith s "https://"
    || strStartsWith s "mailto:" || strStartsWith s "tel:"

/-- Human-ish string predicate (`looks_humanish`): ASCII alphanumerics plus
space, dash, underscore, and not too long.  Rust measures `s.len()` in bytes;
for the strings accepted here all characters are ASCII, so the character count
used below agrees with the byte count, and on non-ASCII strings both versions
return `false`. -/
def looks_humanish (s : String) : Bool :=
  s.length ≤ STRING_ENUM_MAX_LEN &&
  s.toList.all (fun c => c.isAlphanum || c = ' ' || c = '-' || c = '_')

/-- The Unicode `White_Space` property, the predicate behind Rust's
`char::is_whitespace` (the exhaustive code-point list of the property). -/
def rustIsWhitespace (c : Char) : Bool :=
  let n := c.toNat
  (9 ≤ n && n ≤ 13) || n = 32 || n = 133 || n = 160 || n = 5760 ||
  (8192 ≤ n && n ≤ 8202) || n = 8232 || n = 8233 || n = 8239 || n = 8287 ||
  n = 12288

/-- Rust's `str::trim`: strip leading and trailing whitespace characters. -/
def strTrim (s : String) : String :=
  ⟨((s.data.dropWhile rustIsWhitespace).reverse.dropWhile
      rustIsWhitespace).reverse⟩

/-- Cache key of a literal set (`grex_cache_key` in `src/inference/str.rs`):
distinct count, total Unicode scalar count, and a rolling hash over the sorted
trimmed contents (`samples` iterates in ascending `BTreeSet` order). -/
def grex_cache_key (p : Policy) (samples : List String) : Nat × Nat × Nat :=
  (samples.length, (samples.map String.length).sum,
   p.strHash (samples.map strTrim))

/-- Coarse guardrail (`too_many_alternations`): count of `|` characters.  The
Rust code counts `|` bytes; in UTF-8 the byte `0x7C` occurs exactly at the
occurrences of the character `|`, so the counts agree. -/
def too_many_alternations (rx : String) : Bool :=
  GREX_MAX_ALTS < (rx.toList.filter (fun c => c = '|')).length

/-- Insertion of a string into an ascending list (helper for `sortStrs`). -/
def insStr (s : String) : List String → List String
  | [] => [s]
  | t :: ts => if strLt t s then t :: insStr s ts else s :: t :: ts

/-- Ascending sort of a string list (`lits.sort_unstable()` in
`synth_regex_with_grex`; strings compare totally, so any correct sort yields
the same list). -/
def sortStrs : List String → List String
  | [] => []
  | s :: ss => insStr s (sortStrs ss)

/-- Regex synthesis (`synth_regex_with_grex` in `src/inference/str.rs`): trim,
drop empties, re-check the minimum, sort, run the learner, apply guardrails. -/
def synth_regex_with_grex (p : Policy) (samples : List String) : Option String :=
  if samples.length < GREX_MIN_SAMPLES then none
  else
    let lits := (samples.map strTrim).filter (fun s => !(s = ""))
    if lits.length < GREX_MIN_SAMPLES then none
    else
      let rx := p.grexBuild (sortStrs lits)
      if GREX_MAX_PATTERN_LEN < rx.length || too_many_alternations rx then none
      else some rx

/-- Join of numeric evidence (`join_num` / `NumC::join`): union of literal
sets cleared over the cap, interval hull, disjunction of kind flags. -/
def join_num (a b : NumC) : NumC :=
  let l := unionSet qLt a.lits_f64 b.lits_f64
  { lits_f64 := if MAX_NUM_LITS < l.length then [] else l
    min_f64 := min a.min_f64 b.min_f64
    max_f64 := max a.max_f64 b.max_f64
    saw_int := a.saw_int || b.saw_int
    saw_uint := a.saw_uint || b.saw_uint
    saw_float := a.saw_float || b.saw_float }

/-- Join of string evidence (`join_str` in `src/inference/str.rs`): union of
literal sets cleared over the cap, conjunction of `is_uri`; the synthesized
pattern and the cache key of the output stay at their `Default` (`None`). -/
def join_str (a b : StrC) : StrC :=
  let l := unionSet strLt a.lits b.lits
  { lits := if MAX_STR_LITS < l.length then [] else l
    is_uri := a.is_uri && b.is_uri
    pattern_synth := none
    grex_cache_key := none }

-- ------------------------------ State (CNF) ------------------------------- --

mutual

/-- The evidence lattice point (`U` in `src/inference.rs`): two flags plus at
most one constraint record per kind. -/
inductive U where
  | mk (nullable : Bool) (has_bool : Bool) (num : Option NumC) (str_ : Option StrC)
      (arr : Option ArrC) (obj : Option ObjC) : U

/-- Array evidence (`ArrC` in `src/inference/arr.rs` / `src/inference.rs`). -/
inductive ArrC where
  | mk (len_min len_max : Nat) (item : U) (cols : List U)
      (present : List Nat) (non_null : List Nat) (samples : Nat) : ArrC

/-- Object evidence (`ObjC`): the `BTreeMap<String, FieldC>` is a list of
`FieldC` records with the key inlined, kept strictly sorted by key. -/
inductive ObjC where
  | mk (fields : List FieldC) (seen_objects : Nat) : ObjC

/-- Per-field evidence (`FieldC`) with the owning map key inlined as `name`. -/
inductive FieldC where
  | mk (name : String) (ty : U) (present_in : Nat) (non_null_in : Nat) : FieldC

end

def U.nullable : U → Bool
  | .mk nl _ _ _ _ _ => nl

def U.has_bool : U → Bool
  | .mk _ hb _ _ _ _ => hb

def U.num : U → Option NumC
  | .mk _ _ n _ _ _ => n

def U.str_ : U → Option StrC
  | .mk _ _ _ s _ _ => s

def U.arr : U → Option ArrC
  | .mk _ _ _ _ a _ => a

def U.obj : U → Option ObjC
  | .mk _ _ _ _ _ o => o

def ArrC.len_min : ArrC → Nat
  | .mk x _ _ _ _ _ _ => x

def ArrC.len_max : ArrC → Nat
  | .mk _ x _ _ _ _ _ => x

def ArrC.item : ArrC → U
  | .mk _ _ x _ _ _ _ => x

def ArrC.cols : ArrC → List U
  | .mk _ _ _ x _ _ _ => x

def ArrC.present : ArrC → List Nat
  | .mk _ _ _ _ x _ _ => x

def ArrC.non_null : ArrC → List Nat
  | .mk _ _ _ _ _ x _ => x

def ArrC.samples : ArrC → Nat
  | .mk _ _ _ _ _ _ x => x

def ObjC.fields : ObjC → List FieldC
  | .mk f _ => f

def ObjC.seen_objects : ObjC → Nat
  | .mk _ s => s

def FieldC.name : FieldC → String
  | .mk k _ _ _ => k

def FieldC.ty : FieldC → U
  | .mk _ t _ _ => t

def FieldC.present_in : FieldC → Nat
  | .mk _ _ p _ => p

def FieldC.non_null_in : FieldC → Nat
  | .mk _ _ _ n => n

/-- Bottom of the lattice (`U::empty`). -/
def U.empty : U := .mk false false none none none none

/-- The singleton lattice point of `null` (`missing_nullable` in
`src/inference.rs` / `src/inference/arr.rs`). -/
def missing_nullable : U := .mk true false none none none none

/-- Exactly-null test (`is_exact_null` in `src/lower.rs` and
`src/inference.rs`, used as `U::is_exact_null` by `src/norm_ir.rs`). -/
def U.is_exact_null (u : U) : Bool :=
  u.nullable && !u.has_bool && u.num.isNone && u.str_.isNone
    && u.arr.isNone && u.obj.isNone

-- -------------------------------- Join (⊔) -------------------------------- --

/-- Lookup in a field map (`BTreeMap::get`): the first record with the given
key; on the strictly-sorted lists maintained everywhere this is the unique
record. -/
def lookupField (k : String) : List FieldC → Option FieldC
  | [] => none
  | f :: fs => if f.name = k then some f else lookupField k fs

/-- Membership in a field map (`BTreeMap::contains_key`). -/
def containsField (k : String) : List FieldC → Bool
  | [] => false
  | f :: fs => f.name = k || containsField k fs

/-- Sorted insertion into a field map (`BTreeMap::insert`): place the record
at its key position, overwriting an existing record with the same key. -/
def insSortedField (f : FieldC) : List FieldC → List FieldC
  | [] => [f]
  | g :: gs =>
    if strLt f.name g.name then f :: g :: gs
    else if strLt g.name f.name then g :: insSortedField f gs
    else f :: gs

/-- Second loop of `join_obj`: add the keys that appear only in `b`
(`if !out.fields.contains_key(k) { out.fields.insert(...) }`). -/
def addMissing : List FieldC → List FieldC → List FieldC
  | [], out => out
  | fb :: rest, out =>
    addMissing rest (if containsField fb.name out then out else insSortedField fb out)

/-- Merge of two optional constraint records: whichever side is present, the
per-kind join when both are (the four `match` arms of `join`). -/
def joinOpt (j : α → α → α) : Option α → Option α → Option α
  | some x, some y => some (j x y)
  | some x, none => some x
  | none, some y => some y
  | none, none => none

/-- Pointwise sum of two count vectors over the first `n` indices
(`(0..n).map(|i| a.get(i).unwrap_or(0) + b.get(i).unwrap_or(0))` in
`join_arr`). -/
def countsAt (n : Nat) (xs ys : List Nat) : List Nat :=
  (List.range n).map (fun i => xs.getD i 0 + ys.getD i 0)

/-- Join of a column with the `missing_nullable` padding point, in closed
form: the pad only raises the `nullable` flag (every other component of
`missing_nullable` is absent).  The lemmas `join_missing_left` and
`join_missing_right` below prove this equal to `join` against
`missing_nullable` on either side. -/
def padNull : U → U
  | .mk _ hb n s a o => .mk true hb n s a o

mutual

/-- The join operator (`join` in `src/inference.rs`): flags by disjunction,
constraint records merged per kind. -/
def join : U → U → U
  | .mk nl1 hb1 num1 str1 arr1 obj1, .mk nl2 hb2 num2 str2 arr2 obj2 =>
    .mk (nl1 || nl2) (hb1 || hb2)
      (joinOpt join_num num1 num2) (joinOpt join_str str1 str2)
      (joinOptArr arr1 arr2) (joinOptObj obj1 obj2)
termination_by structural a _ => a

def joinOptArr : Option ArrC → Option ArrC → Option ArrC
  | none, none => none
  | some x, none => some x
  | none, some y => some y
  | some x, some y => some (join_arr x y)
termination_by structural a _ => a

def joinOptObj : Option ObjC → Option ObjC → Option ObjC
  | none, none => none
  | some x, none => some x
  | none, some y => some y
  | some x, some y => some (join_obj x y)
termination_by structural a _ => a

/-- Join of array evidence (`join_arr` / `ArrC::join`): length hull, sample
sum, pooled item join, and per-position join of the first
`n = max(|a.cols|, |b.cols|)` columns, where a missing column contributes the
exact-null point `missing_nullable`. -/
def join_arr : ArrC → ArrC → ArrC
  | .mk lm1 lx1 it1 c1 p1 n1 s1, .mk lm2 lx2 it2 c2 p2 n2 s2 =>
    .mk (min lm1 lm2) (max lx1 lx2) (join it1 it2) (joinCols c1 c2)
      (countsAt (max c1.length c2.length) p1 p2)
      (countsAt (max c1.length c2.length) n1 n2)
      (s1 + s2)
termination_by structural a _ => a

/-- Positional join of the column vectors, padding the shorter side with
`missing_nullable` (the `a.cols.get(i).cloned().unwrap_or_else(missing_nullable)`
loop of `join_arr`): positions present on both sides join, positions present
on one side join with the pad, in closed form `padNull`. -/
def joinCols : List U → List U → List U
  | [], ys => ys.map padNull
  | xs, [] => xs.map padNull
  | x :: xs, y :: ys => join x y :: joinCols xs ys
termination_by structural a _ => a

/-- Join of object evidence (`join_obj` / `ObjC::join`): `seen_objects` add,
and the two `BTreeMap` insertion loops over the field maps: first every key
of `a` (combined with `b`'s record when both sides have it), then the keys
that appear only in `b`. -/
def join_obj : ObjC → ObjC → ObjC
  | .mk f1 s1, .mk f2 s2 => .mk (addMissing f2 (joinFieldsA f1 f2)) (s1 + s2)
termination_by structural a _ => a

/-- First loop of `join_obj`: every key of `a` is inserted, combined with
`b`'s record for the key when present.  Since `a` iterates in ascending key
order, the successive `BTreeMap::insert` calls build exactly this list. -/
def joinFieldsA : List FieldC → List FieldC → List FieldC
  | [], _ => []
  | fa :: rest, b =>
    (match lookupField fa.name b with
     | none => fa
     | some fb => joinField fa fb) :: joinFieldsA rest b
termination_by structural a _ => a

/-- Combination of the two records of one key: presence counts add, field
types join. -/
def joinField : FieldC → FieldC → FieldC
  | .mk k ty1 p1 n1, .mk _ ty2 p2 n2 => .mk k (join ty1 ty2) (p1 + p2) (n1 + n2)
termination_by structural a _ => a

end

/-- The complete field-map merge performed by `join_obj`. -/
def joinFields (a b : List FieldC) : List FieldC :=
  addMissing b (joinFieldsA a b)

-- ------------------------------ Observe ---------------------------------- --

/-- Numeric observation (the `Value::Number` branch of `observe_value`):
`as_i64` first (non-negative integers up to `i64::MAX` and all negative
integers), then `as_u64` (larger non-negative integers), then `as_f64`. -/
def observe_num (n : JNum) : NumC :=
  match n with
  | .posInt k =>
    if k ≤ I64_MAX then
      { lits_f64 := [(k : ℚ)], min_f64 := (k : ℚ), max_f64 := (k : ℚ)
        saw_int := true, saw_uint := false, saw_float := false }
    else
      { lits_f64 := [(k : ℚ)], min_f64 := (k : ℚ), max_f64 := (k : ℚ)
        saw_int := false, saw_uint := true, saw_float := false }
  | .negInt i =>
    { lits_f64 := [(i : ℚ)], min_f64 := (i : ℚ), max_f64 := (i : ℚ)
      saw_int := true, saw_uint := false, saw_float := false }
  | .float q =>
    { lits_f64 := [q], min_f64 := q, max_f64 := q
      saw_int := false, saw_uint := false, saw_float := true }

/-- Per-element non-null indicator vector built by the `observe_array` loop
(`non_null[i] += 1` unless the element is `Null`). -/
def nonNullBits : List Json → List Nat
  | [] => []
  | .null :: xs => 0 :: nonNullBits xs
  | _ :: xs => 1 :: nonNullBits xs

mutual

/-- Observation of one JSON value (`observe_value` in `src/inference.rs`). -/
def observe_value : Json → U
  | .null => .mk true false none none none none
  | .bool _ => .mk false true none none none none
  | .num n => .mk false false (some (observe_num n)) none none none
  | .str s =>
    .mk false false none (some ⟨[s], looks_like_uri s, none, none⟩) none none
  | .arr xs =>
    .mk false false none none
      (some (.mk xs.length xs.length (observe_item U.empty xs) (observe_cols xs)
        (List.replicate xs.length 1) (nonNullBits xs) 1)) none
  | .obj m => .mk false false none none none (some (.mk (observe_fields m) 1))
termination_by structural v => v

/-- The list-hypothesis fold of `observe_array`:
`for el in xs { item = join(&item, &observe_value(el)); }`. -/
def observe_item : U → List Json → U
  | acc, [] => acc
  | acc, x :: xs => observe_item (join acc (observe_value x)) xs
termination_by structural _ l => l

/-- The tuple-hypothesis columns of `observe_array`: position `i` holds
`join(U::empty(), observe_value(xs[i]))` (the freshly resized empty cell
joined with the element's observation). -/
def observe_cols : List Json → List U
  | [] => []
  | x :: xs => join U.empty (observe_value x) :: observe_cols xs
termination_by structural l => l

/-- Object observation (`observe_object`): each key of the (sorted) map gets
`FieldC { ty = observe(v), present_in = 1, non_null_in = v ≠ null }`. -/
def observe_fields : List (String × Json) → List FieldC
  | [] => []
  | (k, .null) :: r => .mk k (observe_value .null) 1 0 :: observe_fields r
  | (k, v) :: r => .mk k (observe_value v) 1 1 :: observe_fields r
termination_by structural l => l

end

/-- Fold of the whole corpus (`infer_from_values` in `src/inference.rs`
before its final `normalize` call, and the `Inference::observe_value` driver
loop): start from `U::empty()` and join each observation in. -/
def infer_state (vs : List Json) : U :=
  vs.foldl (fun st v => join st (observe_value v)) U.empty

/-- Array observation (`observe_array` in `src/inference.rs`): one sample,
exact length interval, pooled item evidence, per-position column evidence with
`present[i] = 1` and the non-null indicators.  This is the array record built
inside `observe_value` on `Value::Array`. -/
def observe_arrC (xs : List Json) : ArrC :=
  .mk xs.length xs.length (observe_item U.empty xs) (observe_cols xs)
    (List.replicate xs.length 1) (nonNullBits xs) 1

-- ------------------------------- Normalize -------------------------------- --

/-- Tuple-evidence decision (`decide_tuple` in `src/inference.rs`): at least
two samples, non-empty columns, and either exact arity or an exact-null pad
column. -/
def decide_tuple (a : ArrC) : Bool :=
  if a.samples < 2 then false
  else if a.cols.isEmpty then false
  else if a.len_min = a.len_max ∧ 0 < a.len_max then true
  else
    (List.range a.cols.length).any fun i =>
      a.present.getD i 0 == a.samples && a.non_null.getD i 0 == 0

/-- Minimum tuple arity (`tuple_min_items_arr` in `src/inference.rs`): the
loop keeps the last index `i < cols.len()` with `present[i] == samples`,
returning `last_req + 1`, or `0` when no index qualifies. -/
def tuple_min_items_arr (a : ArrC) : Nat :=
  (List.range a.cols.length).foldl
    (fun acc i => if a.present.getD i 0 = a.samples then i + 1 else acc) 0

-- ----------------------------- Normalized IR ------------------------------ --

mutual

/-- The normalized IR (`NTy` in `src/norm_ir.rs`). -/
inductive NTy where
  | null
  | bool
  | integer (min max : Option Int)
  | number (min max : Option ℚ)
  | string (enum_ : List String) (pattern : Option String) (format_uri : Bool)
  | arrayList (item : NTy) (min_items max_items : Option Nat)
  | arrayTuple (elems : List NTy) (min_items max_items : Nat)
  | object (fields : List NField)
  | nullable (inner : NTy)
  | oneOf (arms : List NTy)

/-- A normalized object field (`NField`). -/
inductive NField where
  | mk (name : String) (ty : NTy) (required : Bool) : NField

end

def NField.name : NField → String
  | .mk k _ _ => k

def NField.ty : NField → NTy
  | .mk _ t _ => t

def NField.required : NField → Bool
  | .mk _ _ r => r

/-- Discriminator for the `NTy::Null` pattern match of the builder. -/
def isNullNTy : NTy → Bool
  | .null => true
  | _ => false

/-- Union simplification (`simplify_norm_unions`): strip `Null` arms, note
whether one was present, rebuild, and wrap in `Nullable` when a `Null` arm was
stripped. -/
def simplify_norm_unions (arms : List NTy) : NTy :=
  let had_null := arms.any isNullNTy
  let kept := arms.filter (fun t => !isNullNTy t)
  let core :=
    match kept with
    | [] => NTy.null
    | [x] => x
    | xs => NTy.oneOf xs
  if had_null then .nullable core else core

/-- Stable insertion of a normalized field into a name-sorted list (helper for
`sortNFields`). -/
def insNField (f : NField) : List NField → List NField
  | [] => [f]
  | g :: gs => if strLt g.name f.name then g :: insNField f gs else f :: g :: gs

/-- Stable sort of normalized fields by name
(`fields.sort_by(|a, b| a.name.cmp(&b.name))`). -/
def sortNFields : List NField → List NField
  | [] => []
  | f :: fs => insNField f (sortNFields fs)

/-- Integrality test of a rational: stands for `f.fract() == 0.0` on the
finite doubles being modelled. -/
def isIntegral (q : ℚ) : Bool := q.den == 1

/-- Saturating `as i64` cast of an integral finite double. -/
def satCastI64 (q : ℚ) : Int := max I64_MIN (min q.num (I64_MAX : Int))

/-- The number arm of the builder (`norm_ir.rs` step 3).  The two
`is_finite()` guards hold identically here because every modelled double is
finite. -/
def numArm (num : NumC) : NTy :=
  let integerish := (num.saw_int || num.saw_uint) && !num.saw_float
    && isIntegral num.min_f64 && isIntegral num.max_f64
  if integerish then
    .integer (some (satCastI64 num.min_f64)) (some (satCastI64 num.max_f64))
  else
    .number (some num.min_f64) (some num.max_f64)

/-- The string arm of the builder (`norm_ir.rs` step 4): tiny human enum when
enabled, else pattern synthesis (with the cache-key test) for non-URI strings,
else a plain string carrying the URI format flag. -/
def strArm (p : Policy) (sc : StrC) : NTy :=
  let tiny_enum := p.enable_string_enums && sc.lits.length ≤ STRING_ENUM_MAX
    && sc.lits.all (fun s => s.length ≤ STRING_ENUM_MAX_LEN && looks_humanish s)
  if tiny_enum && !sc.lits.isEmpty then
    .string sc.lits none sc.is_uri
  else if !sc.is_uri then
    let rx :=
      if p.enable_grex then
        if sc.grex_cache_key = some (grex_cache_key p sc.lits) then sc.pattern_synth
        else synth_regex_with_grex p sc.lits
      else none
    .string [] rx sc.is_uri
  else
    .string [] none sc.is_uri

/-- The number arm list of the builder. -/
def armsNum : Option NumC → List NTy
  | none => []
  | some nc => [numArm nc]

/-- The string arm list of the builder. -/
def armsStr (p : Policy) : Option StrC → List NTy
  | none => []
  | some sc => [strArm p sc]

/-- The bool arm list of the builder (`norm_ir.rs` step 5). -/
def armsBool (hb : Bool) : List NTy := if hb then [.bool] else []

mutual

/-- The normalized-IR builder (`normalize_to_norm_consume` in
`src/norm_ir.rs`): exact null short-circuits; otherwise arms are built in the
fixed order arrays, objects, numbers, strings, bool, assembled, and wrapped in
`Nullable` when the point is nullable. -/
def normalize_to_norm (p : Policy) : U → NTy
  | .mk nl hb onum ostr oarr oobj =>
    if (U.mk nl hb onum ostr oarr oobj).is_exact_null then .null
    else
      let arms := armsArr p oarr ++ armsObj p oobj
        ++ armsNum onum ++ armsStr p ostr ++ armsBool hb
      let core :=
        match arms with
        | [] => NTy.null
        | [x] => x
        | xs => simplify_norm_unions xs
      if nl && !(isNullNTy core) then .nullable core else core
termination_by structural u => u

/-- The array arm of the builder (`norm_ir.rs` step 1): the tuple/list
decision precedes recursion; on a tuple the non-exact-arity minimum is
computed by `tuple_min_items_arr` on the temporary record whose `cols` is the
empty vector, exactly as the source builds it. -/
def armsArr (p : Policy) : Option ArrC → List NTy
  | none => []
  | some (.mk lm lx it cols pres nnl smp) =>
    let is_tuple := decide_tuple (.mk lm lx it cols pres nnl smp)
    let item_norm := normalize_to_norm p it
    if !is_tuple then
      [.arrayList item_norm (some lm) (some lx)]
    else
      let elems := normCols p cols
      let max_items := elems.length
      let min_items :=
        if lm = lx ∧ 0 < lx then max_items
        else tuple_min_items_arr (.mk lm lx U.empty [] pres nnl smp)
      [.arrayTuple elems min_items max_items]
termination_by structural oa => oa

/-- The object arm of the builder (`norm_ir.rs` step 2). -/
def armsObj (p : Policy) : Option ObjC → List NTy
  | none => []
  | some (.mk fields seen) => [.object (sortNFields (normFieldsCore p seen fields))]
termination_by structural oo => oo

/-- Normalization of the column vector of a tuple (`cols.into_iter().map(...)`). -/
def normCols (p : Policy) : List U → List NTy
  | [] => []
  | c :: cs => normalize_to_norm p c :: normCols p cs
termination_by structural l => l

/-- Normalization of the field map of an object (`norm_ir.rs` step 2, before
the sort): each field keeps its name, normalizes its type, and is required iff
`non_null_in == seen_objects`. -/
def normFieldsCore (p : Policy) (seen : Nat) : List FieldC → List NField
  | [] => []
  | .mk k ty _pin nin :: r =>
    .mk k (normalize_to_norm p ty) (nin == seen) :: normFieldsCore p seen r
termination_by structural l => l

end

-- ========================= Order and set lemmas =========================== --

theorem charListLt_irrefl (l : List Char) : charListLt l l = false := by
  induction l with
  | nil => rfl
  | cons c cs ih => simp [charListLt, ih]

theorem charListLt_trans {a b c : List Char} (h1 : charListLt a b = true)
    (h2 : charListLt b c = true) : charListLt a c = true := by
  induction a generalizing b c with
  | nil =>
    cases b with
    | nil => simp [charListLt] at h1
    | cons y ys =>
      cases c with
      | nil => simp [charListLt] at h2
      | cons z zs => rfl
  | cons x xs ih =>
    cases b with
    | nil => simp [charListLt] at h1
    | cons y ys =>
      cases c with
      | nil => simp [charListLt] at h2
      | cons z zs =>
        simp only [charListLt, Bool.or_eq_true, Bool.and_eq_true,
          decide_eq_true_eq] at h1 h2 ⊢
        rcases h1 with h1 | ⟨rfl, h1⟩
        · rcases h2 with h2 | ⟨rfl, h2⟩
          · exact Or.inl (lt_trans h1 h2)
          · exact Or.inl h1
        · rcases h2 with h2 | ⟨rfl, h2⟩
          · exact Or.inl h2
          · exact Or.inr ⟨rfl, ih h1 h2⟩

theorem charListLt_asymm {a b : List Char} (h : charListLt a b = true) :
    charListLt b a = false := by
  cases hh : charListLt b a with
  | false => rfl
  | true =>
    have htt := charListLt_trans h hh
    rw [charListLt_irrefl] at htt
    exact htt.symm

theorem charListLt_conn {a b : List Char} (h1 : charListLt a b = false)
    (h2 : charListLt b a = false) : a = b := by
  induction a generalizing b with
  | nil =>
    cases b with
    | nil => rfl
    | cons y ys => simp [charListLt] at h1
  | cons x xs ih =>
    cases b with
    | nil => simp [charListLt] at h2
    | cons y ys =>
      simp only [charListLt, Bool.or_eq_false_iff, Bool.and_eq_false_iff,
        decide_eq_false_iff_not, decide_eq_true_eq] at h1 h2
      obtain ⟨hxy, h1'⟩ := h1
      obtain ⟨hyx, h2'⟩ := h2
      have hxyeq : x = y := le_antisymm (not_lt.mp hyx) (not_lt.mp hxy)
      subst hxyeq
      rcases h1' with h1' | h1'
      · exact absurd rfl h1'
      · rcases h2' with h2' | h2'
        · exact absurd rfl h2'
        · rw [ih h1' h2']

theorem strLt_irrefl (a : String) : strLt a a = false := charListLt_irrefl a.data

theorem strLt_trans {a b c : String} (h1 : strLt a b = true)
    (h2 : strLt b c = true) : strLt a c = true := charListLt_trans h1 h2

theorem strLt_asymm {a b : String} (h : strLt a b = true) : strLt b a = false :=
  charListLt_asymm h

theorem strLt_conn {a b : String} (h1 : strLt a b = false)
    (h2 : strLt b a = false) : a = b := by
  cases a with
  | mk da =>
    cases b with
    | mk db => exact congrArg String.mk (charListLt_conn h1 h2)

theorem qLt_irrefl (a : ℚ) : qLt a a = false := by simp [qLt]

theorem qLt_trans {a b c : ℚ} (h1 : qLt a b = true) (h2 : qLt b c = true) :
    qLt a c = true := by
  simp only [qLt, decide_eq_true_eq] at h1 h2 ⊢
  exact lt_trans h1 h2

theorem qLt_asymm {a b : ℚ} (h : qLt a b = true) : qLt b a = false := by
  simp only [qLt, decide_eq_true_eq] at h
  simp [qLt, le_of_lt h]

theorem qLt_conn {a b : ℚ} (h1 : qLt a b = false) (h2 : qLt b a = false) :
    a = b := by
  simp only [qLt, decide_eq_false_iff_not, not_lt] at h1 h2
  exact le_antisymm h2 h1

/-- The three laws of a strict total order, packaged for the generic
ordered-set lemmas. -/
structure LawfulLt (lt : α → α → Bool) : Prop where
  trans : ∀ {a b c}, lt a b = true → lt b c = true → lt a c = true
  asymm : ∀ {a b}, lt a b = true → lt b a = false
  conn : ∀ {a b}, lt a b = false → lt b a = false → a = b

theorem LawfulLt.irrefl {lt : α → α → Bool} (L : LawfulLt lt) (a : α) :
    lt a a = false := by
  cases h : lt a a with
  | false => rfl
  | true =>
    have hf := L.asymm h
    rw [h] at hf
    exact hf

theorem lawful_strLt : LawfulLt strLt :=
  ⟨fun h1 h2 => strLt_trans h1 h2, fun h => strLt_asymm h,
   fun h1 h2 => strLt_conn h1 h2⟩

theorem lawful_qLt : LawfulLt qLt :=
  ⟨fun h1 h2 => qLt_trans h1 h2, fun h => qLt_asymm h,
   fun h1 h2 => qLt_conn h1 h2⟩

theorem mem_insSet {lt : α → α → Bool} (L : LawfulLt lt) (x y : α)
    (l : List α) : y ∈ insSet lt x l ↔ y = x ∨ y ∈ l := by
  induction l with
  | nil => simp [insSet]
  | cons t ts ih =>
    by_cases h1 : lt x t = true
    · simp [insSet, h1]
    · rw [Bool.not_eq_true] at h1
      by_cases h2 : lt t x = true
      · simp only [insSet, h1, h2, Bool.false_eq_true, if_false, if_true,
          List.mem_cons, ih]
        tauto
      · rw [Bool.not_eq_true] at h2
        have hxt : x = t := L.conn h1 h2
        subst hxt
        simp only [insSet, h1, Bool.false_eq_true, if_false, List.mem_cons]
        tauto

theorem sortedSet_cons {lt : α → α → Bool} {x : α} {l : List α} :
    sortedSet lt (x :: l) = true ↔
      (∀ h : l ≠ [], lt x (l.head h) = true) ∧ sortedSet lt l = true := by
  cases l with
  | nil => simp [sortedSet]
  | cons y ys => simp [sortedSet]

theorem sortedSet_head_lt {lt : α → α → Bool} (L : LawfulLt lt) {x : α}
    {l : List α} (hs : sortedSet lt (x :: l) = true) {y : α} (hy : y ∈ l) :
    lt x y = true := by
  induction l generalizing x with
  | nil => cases hy
  | cons t ts ih =>
    simp only [sortedSet, Bool.and_eq_true] at hs
    rcases List.mem_cons.mp hy with rfl | hy'
    · exact hs.1
    · exact L.trans hs.1 (ih hs.2 hy')

theorem sortedSet_tail {lt : α → α → Bool} {x : α} {l : List α}
    (hs : sortedSet lt (x :: l) = true) : sortedSet lt l = true := by
  cases l with
  | nil => rfl
  | cons y ys => exact (Bool.and_eq_true _ _ |>.mp hs).2

theorem sorted_insSet {lt : α → α → Bool} (L : LawfulLt lt) (x : α)
    {l : List α} (hs : sortedSet lt l = true) :
    sortedSet lt (insSet lt x l) = true := by
  induction l with
  | nil => rfl
  | cons t ts ih =>
    by_cases h1 : lt x t = true
    · simp only [insSet, h1, if_true]
      rw [sortedSet_cons]
      exact ⟨fun _ => h1, hs⟩
    · rw [Bool.not_eq_true] at h1
      by_cases h2 : lt t x = true
      · have hts := sortedSet_tail hs
        have hrec := ih hts
        simp only [insSet, h1, Bool.false_eq_true, if_false, h2, if_true]
        rw [sortedSet_cons]
        refine ⟨?_, hrec⟩
        intro hne
        have hmem : (insSet lt x ts).head hne ∈ insSet lt x ts :=
          List.head_mem hne
        rcases (mem_insSet L x _ ts).mp hmem with he | hmem'
        · rw [he]; exact h2
        · exact sortedSet_head_lt L hs hmem'
      · rw [Bool.not_eq_true] at h2
        have hxt : x = t := L.conn h1 h2
        subst hxt
        simpa [insSet, h1] using hs

theorem insSet_mem_eq {lt : α → α → Bool} (L : LawfulLt lt) {x : α}
    {l : List α} (hs : sortedSet lt l = true) (hm : x ∈ l) :
    insSet lt x l = l := by
  induction l with
  | nil => cases hm
  | cons t ts ih =>
    rcases List.mem_cons.mp hm with rfl | hm'
    · simp [insSet, L.irrefl]
    · have hlt : lt t x = true := sortedSet_head_lt L hs hm'
      have hxt : lt x t = false := L.asymm hlt
      simp only [insSet, hxt, Bool.false_eq_true, if_false, hlt, if_true,
        List.cons.injEq, true_and]
      exact ih (sortedSet_tail hs) hm'

theorem mem_unionSet {lt : α → α → Bool} (L : LawfulLt lt) (a b : List α)
    (y : α) : y ∈ unionSet lt a b ↔ y ∈ a ∨ y ∈ b := by
  induction a with
  | nil => simp [unionSet]
  | cons x xs ih =>
    simp only [unionSet, List.foldr_cons] at ih ⊢
    rw [mem_insSet L, ih]
    simp [List.mem_cons]
    tauto

theorem sorted_unionSet {lt : α → α → Bool} (L : LawfulLt lt) (a : List α)
    {b : List α} (hb : sortedSet lt b = true) :
    sortedSet lt (unionSet lt a b) = true := by
  induction a with
  | nil => exact hb
  | cons x xs ih => exact sorted_insSet L x ih

theorem unionSet_self {lt : α → α → Bool} (L : LawfulLt lt) {l : List α}
    (hs : sortedSet lt l = true) : unionSet lt l l = l := by
  have aux : ∀ a : List α, (∀ x ∈ a, x ∈ l) → unionSet lt a l = l := by
    intro a
    induction a with
    | nil => intro _; rfl
    | cons x xs ih =>
      intro hsub
      have hx : x ∈ l := hsub x (List.mem_cons_self _ _)
      have hxs : ∀ z ∈ xs, z ∈ l := fun z hz => hsub z (List.mem_cons_of_mem x hz)
      simp only [unionSet, List.foldr_cons]
      have : List.foldr (insSet lt) l xs = l := ih hxs
      rw [this]
      exact insSet_mem_eq L hs hx
  exact aux l (fun x hx => hx)

/-- Extensionality of sorted duplicate-free lists: equal membership forces
equal lists. -/
theorem sortedSet_ext {lt : α → α → Bool} (L : LawfulLt lt) :
    ∀ {l1 l2 : List α}, sortedSet lt l1 = true → sortedSet lt l2 = true →
      (∀ x, x ∈ l1 ↔ x ∈ l2) → l1 = l2 := by
  intro l1
  induction l1 with
  | nil =>
    intro l2 _ _ hm
    cases l2 with
    | nil => rfl
    | cons y ys => simpa using (hm y).mpr (List.mem_cons_self _ _)
  | cons x xs ih =>
    intro l2 h1 h2 hm
    cases l2 with
    | nil => simpa using (hm x).mp (List.mem_cons_self _ _)
    | cons y ys =>
      have hxy : x = y := by
        rcases List.mem_cons.mp ((hm x).mp (List.mem_cons_self _ _)) with h | h
        · exact h
        · rcases List.mem_cons.mp ((hm y).mpr (List.mem_cons_self _ _)) with h' | h'
          · exact h'.symm
          · have hyx := sortedSet_head_lt L h2 h
            have hxy' := sortedSet_head_lt L h1 h'
            exact absurd hyx (by rw [L.asymm hxy']; exact Bool.false_ne_true)
      subst hxy
      have htl : xs = ys := by
        refine ih (sortedSet_tail h1) (sortedSet_tail h2) ?_
        intro z
        constructor
        · intro hz
          have hlt := sortedSet_head_lt L h1 hz
          rcases List.mem_cons.mp ((hm z).mp (List.mem_cons_of_mem x hz)) with rfl | h
          · exact absurd hlt (by rw [L.irrefl]; exact Bool.false_ne_true)
          · exact h
        · intro hz
          have hlt := sortedSet_head_lt L h2 hz
          rcases List.mem_cons.mp ((hm z).mpr (List.mem_cons_of_mem x hz)) with rfl | h
          · exact absurd hlt (by rw [L.irrefl]; exact Bool.false_ne_true)
          · exact h
      rw [htl]

theorem unionSet_assoc {lt : α → α → Bool} (L : LawfulLt lt)
    {a b c : List α} (hc : sortedSet lt c = true) :
    unionSet lt (unionSet lt a b) c = unionSet lt a (unionSet lt b c) := by
  have h1 : sortedSet lt (unionSet lt b c) = true := sorted_unionSet L b hc
  have h2 : sortedSet lt (unionSet lt (unionSet lt a b) c) = true :=
    sorted_unionSet L _ hc
  have h3 : sortedSet lt (unionSet lt a (unionSet lt b c)) = true :=
    sorted_unionSet L a h1
  refine sortedSet_ext L h2 h3 ?_
  intro z
  rw [mem_unionSet L, mem_unionSet L, mem_unionSet L, mem_unionSet L]
  tauto

theorem unionSet_length_comm_mem {lt : α → α → Bool} (L : LawfulLt lt)
    {a b : List α} (ha : sortedSet lt a = true) (hb : sortedSet lt b = true) :
    unionSet lt a b = unionSet lt b a := by
  refine sortedSet_ext L (sorted_unionSet L a hb) (sorted_unionSet L b ha) ?_
  intro z
  rw [mem_unionSet L, mem_unionSet L]
  tauto

-- ======================= Invariants and basic lemmas ====================== --

/-- Name list of a field map. -/
def fieldNames (fs : List FieldC) : List String := fs.map FieldC.name

/-- Invariant of a numeric record: literal set strictly sorted and within cap. -/
def InvNum (nc : NumC) : Bool :=
  sortedSet qLt nc.lits_f64 && nc.lits_f64.length ≤ MAX_NUM_LITS

def InvNumOpt : Option NumC → Bool
  | none => true
  | some nc => InvNum nc

/-- Invariant of a string record: literal set strictly sorted and within cap,
and the grex cache fields unset (no code path in the engine ever writes
them: `observe_value` leaves them at `Default` and `join_str` resets them). -/
def InvStr (sc : StrC) : Bool :=
  sortedSet strLt sc.lits && sc.lits.length ≤ MAX_STR_LITS
    && sc.pattern_synth.isNone && sc.grex_cache_key.isNone

def InvStrOpt : Option StrC → Bool
  | none => true
  | some sc => InvStr sc

mutual

/-- Structural invariant of every lattice point reachable from `observe` and
`join`: literal sets are strictly sorted and within cap, the grex cache fields
are unset, count vectors have the column count's length, and object field
maps are strictly sorted by key. -/
def InvU : U → Bool
  | .mk _ _ onum ostr oarr oobj =>
    InvNumOpt onum && InvStrOpt ostr && InvArrOpt oarr && InvObjOpt oobj
termination_by structural u => u

def InvArrOpt : Option ArrC → Bool
  | none => true
  | some a => InvArr a
termination_by structural o => o

def InvObjOpt : Option ObjC → Bool
  | none => true
  | some o => InvObj o
termination_by structural o => o

def InvArr : ArrC → Bool
  | .mk _ _ it cols pres nnl _ =>
    pres.length == cols.length && nnl.length == cols.length
      && InvU it && InvCols cols
termination_by structural a => a

def InvCols : List U → Bool
  | [] => true
  | c :: cs => InvU c && InvCols cs
termination_by structural l => l

def InvObj : ObjC → Bool
  | .mk fs _ => sortedSet strLt (fieldNames fs) && InvFields fs
termination_by structural o => o

def InvFields : List FieldC → Bool
  | [] => true
  | .mk _ ty _ _ :: fs => InvU ty && InvFields fs
termination_by structural l => l

end

mutual

/-- Every array record reachable in the point has `samples ≠ 1` (the side
condition under which the tuple decision commutes with doubling counts). -/
def samplesOkU : U → Bool
  | .mk _ _ _ _ oarr oobj =>
    samplesOkArrOpt oarr && samplesOkObjOpt oobj
termination_by structural u => u

def samplesOkArrOpt : Option ArrC → Bool
  | none => true
  | some a => samplesOkArr a
termination_by structural o => o

def samplesOkObjOpt : Option ObjC → Bool
  | none => true
  | some (.mk fs _) => samplesOkFields fs
termination_by structural o => o

def samplesOkArr : ArrC → Bool
  | .mk _ _ it cols _ _ smp =>
    !(smp == 1) && samplesOkU it && samplesOkCols cols
termination_by structural a => a

def samplesOkCols : List U → Bool
  | [] => true
  | c :: cs => samplesOkU c && samplesOkCols cs
termination_by structural l => l

def samplesOkFields : List FieldC → Bool
  | [] => true
  | .mk _ ty _ _ :: fs => samplesOkU ty && samplesOkFields fs
termination_by structural l => l

end

/-- The lattice points built from observed JSON values: observations of
well-formed documents closed under `join`.  This is the reachable set of the
engine (`infer_from_values` / any parallel reduction topology). -/
inductive Built : U → Prop where
  | obs (v : Json) (h : wfJson v = true) : Built (observe_value v)
  | joined (a b : U) : Built a → Built b → Built (join a b)

theorem join_empty_left (v : U) : join U.empty v = v := by
  obtain ⟨nl, hb, onum, ostr, oarr, oobj⟩ := v
  simp only [U.empty, join, Bool.false_or]
  cases onum <;> cases ostr <;> cases oarr <;> cases oobj <;> rfl

theorem padNull_idem (v : U) : padNull (padNull v) = padNull v := by
  obtain ⟨nl, hb, onum, ostr, oarr, oobj⟩ := v
  rfl

theorem join_missing_left (v : U) : join missing_nullable v = padNull v := by
  obtain ⟨nl, hb, onum, ostr, oarr, oobj⟩ := v
  simp only [missing_nullable, join, Bool.true_or, Bool.false_or, padNull]
  cases onum <;> cases ostr <;> cases oarr <;> cases oobj <;> rfl

theorem join_missing_right (v : U) : join v missing_nullable = padNull v := by
  obtain ⟨nl, hb, onum, ostr, oarr, oobj⟩ := v
  simp only [missing_nullable, join, Bool.or_true, Bool.or_false, padNull]
  cases onum <;> cases ostr <;> cases oarr <;> cases oobj <;> rfl

theorem join_padNull_left (x y : U) : join (padNull x) y = padNull (join x y) := by
  obtain ⟨nl1, hb1, onum1, ostr1, oarr1, oobj1⟩ := x
  obtain ⟨nl2, hb2, onum2, ostr2, oarr2, oobj2⟩ := y
  simp [padNull, join]

theorem join_padNull_right (x y : U) : join x (padNull y) = padNull (join x y) := by
  obtain ⟨nl1, hb1, onum1, ostr1, oarr1, oobj1⟩ := x
  obtain ⟨nl2, hb2, onum2, ostr2, oarr2, oobj2⟩ := y
  simp [padNull, join]

-- =========================== Strong induction ============================= --

/-- Strong induction on the size of a lattice point. -/
theorem strongIndU (motive : U → Prop)
    (step : ∀ u, (∀ v, sizeOf v < sizeOf u → motive v) → motive u) :
    ∀ u, motive u := by
  have H : ∀ n (v : U), sizeOf v ≤ n → motive v := by
    intro n
    induction n with
    | zero =>
      intro v h
      exact step v (fun w hw => absurd (Nat.lt_of_lt_of_le hw h) (Nat.not_lt_zero _))
    | succ n ih =>
      intro v h
      exact step v (fun w hw => ih w (Nat.le_of_lt_succ (Nat.lt_of_lt_of_le hw h)))
  exact fun u => H (sizeOf u) u (Nat.le_refl _)

theorem sizeOf_item_lt (nl hb : Bool) (onum : Option NumC) (ostr : Option StrC)
    (oobj : Option ObjC) (lm lx : Nat) (it : U) (cols : List U)
    (pres nnl : List Nat) (smp : Nat) :
    sizeOf it <
      sizeOf (U.mk nl hb onum ostr (some (.mk lm lx it cols pres nnl smp)) oobj) := by
  simp
  omega

theorem sizeOf_col_lt (nl hb : Bool) (onum : Option NumC) (ostr : Option StrC)
    (oobj : Option ObjC) (lm lx : Nat) (it : U) (cols : List U)
    (pres nnl : List Nat) (smp : Nat) {c : U} (hc : c ∈ cols) :
    sizeOf c <
      sizeOf (U.mk nl hb onum ostr (some (.mk lm lx it cols pres nnl smp)) oobj) := by
  have h1 : sizeOf c < sizeOf cols := List.sizeOf_lt_of_mem hc
  simp
  omega

theorem sizeOf_field_ty_lt (nl hb : Bool) (onum : Option NumC) (ostr : Option StrC)
    (oarr : Option ArrC) (fs : List FieldC) (seen : Nat) {f : FieldC}
    (hf : f ∈ fs) :
    sizeOf f.ty < sizeOf (U.mk nl hb onum ostr oarr (some (.mk fs seen))) := by
  have h1 : sizeOf f < sizeOf fs := List.sizeOf_lt_of_mem hf
  obtain ⟨k, ty, pin, nin⟩ := f
  simp only [FieldC.ty]
  simp at h1 ⊢
  omega

-- ======================== Self-join component lemmas ====================== --

theorem join_num_self {n : NumC} (h : InvNum n = true) : join_num n n = n := by
  obtain ⟨l, mn, mx, si, su, sf⟩ := n
  simp only [InvNum, Bool.and_eq_true, decide_eq_true_eq] at h
  obtain ⟨hs, hc⟩ := h
  simp only [join_num, unionSet_self lawful_qLt hs]
  simp [Nat.not_lt.mpr hc, min_self, max_self]

theorem join_str_self {sc : StrC} (h : InvStr sc = true) : join_str sc sc = sc := by
  obtain ⟨l, uri, pat, key⟩ := sc
  simp only [InvStr, Bool.and_eq_true, decide_eq_true_eq, Option.isNone_iff_eq_none] at h
  obtain ⟨⟨⟨hs, hc⟩, hp⟩, hk⟩ := h
  subst hp hk
  simp only [join_str, unionSet_self lawful_strLt hs]
  simp [Nat.not_lt.mpr hc]

theorem joinOpt_isNone (j : α → α → α) (o : Option α) :
    (joinOpt j o o).isNone = o.isNone := by
  cases o <;> rfl

theorem join_self_exact_null (u : U) :
    (join u u).is_exact_null = u.is_exact_null := by
  obtain ⟨nl, hb, onum, ostr, oarr, oobj⟩ := u
  simp only [join, U.is_exact_null, U.nullable, U.has_bool, U.num, U.str_, U.arr,
    U.obj, Bool.or_self, joinOpt_isNone]
  cases oarr <;> cases oobj <;> rfl

theorem armsNum_join_self {onum : Option NumC} (h : InvNumOpt onum = true) :
    armsNum (joinOpt join_num onum onum) = armsNum onum := by
  cases onum with
  | none => rfl
  | some nc => simp only [joinOpt, armsNum, join_num_self h]

theorem armsStr_join_self (p : Policy) {ostr : Option StrC}
    (h : InvStrOpt ostr = true) :
    armsStr p (joinOpt join_str ostr ostr) = armsStr p ostr := by
  cases ostr with
  | none => rfl
  | some sc => simp only [joinOpt, armsStr, join_str_self h]

theorem joinCols_self (c : List U) :
    joinCols c c = c.map (fun x => join x x) := by
  induction c with
  | nil => rfl
  | cons x xs ih => simp [joinCols, ih]

theorem countsAt_getD (n : Nat) (xs ys : List Nat) (i : Nat) :
    (countsAt n xs ys).getD i 0 =
      if i < n then xs.getD i 0 + ys.getD i 0 else 0 := by
  by_cases h : i < n
  · rw [if_pos h]
    have hlen : i < (countsAt n xs ys).length := by
      simpa [countsAt] using h
    rw [List.getD_eq_getElem _ _ hlen]
    simp [countsAt]
  · rw [if_neg h]
    apply List.getD_eq_default
    simpa [countsAt] using Nat.not_lt.mp h

theorem decide_tuple_join_self {a : ArrC}
    (hp : a.present.length = a.cols.length)
    (hn : a.non_null.length = a.cols.length)
    (hs : a.samples ≠ 1) :
    decide_tuple (join_arr a a) = decide_tuple a := by
  obtain ⟨lm, lx, it, cols, pres, nnl, smp⟩ := a
  simp only [ArrC.present, ArrC.cols, ArrC.non_null, ArrC.samples] at hp hn hs
  have e1 : (joinCols cols cols).isEmpty = cols.isEmpty := by
    rw [joinCols_self]
    cases cols <;> rfl
  have e2 : (joinCols cols cols).length = cols.length := by
    rw [joinCols_self, List.length_map]
  simp only [join_arr, decide_tuple, ArrC.samples, ArrC.cols, ArrC.len_min,
    ArrC.len_max, ArrC.present, ArrC.non_null, min_self, max_self, Nat.max_self,
    e1, e2]
  rcases Nat.eq_zero_or_pos smp with h0 | hpos
  · subst h0
    simp
  · have h2 : 2 ≤ smp := by omega
    rw [if_neg (show ¬(smp + smp < 2) by omega), if_neg (show ¬(smp < 2) by omega)]
    by_cases hemp : cols.isEmpty
    · simp [hemp]
    · simp only [hemp, Bool.false_eq_true, if_false]
      by_cases hlen : lm = lx ∧ 0 < lx
      · simp [hlen]
      · simp only [hlen, if_false]
        have hcond : ∀ i ∈ List.range cols.length,
            ((countsAt cols.length pres pres).getD i 0 == smp + smp
              && (countsAt cols.length nnl nnl).getD i 0 == 0)
            = (pres.getD i 0 == smp && nnl.getD i 0 == 0) := by
          intro i hi
          have hilt : i < cols.length := List.mem_range.mp hi
          rw [countsAt_getD, countsAt_getD, if_pos hilt, if_pos hilt]
          congr 1
          · cases hb1 : pres.getD i 0 == smp
            · have hne : pres.getD i 0 ≠ smp := by simpa using hb1
              simp only [beq_eq_false_iff_ne, ne_eq]
              omega
            · have heq : pres.getD i 0 = smp := by simpa using hb1
              simp only [heq, beq_self_eq_true]
          · cases hb1 : nnl.getD i 0 == 0
            · have hne : nnl.getD i 0 ≠ 0 := by simpa using hb1
              simp only [beq_eq_false_iff_ne, ne_eq]
              omega
            · have heq : nnl.getD i 0 = 0 := by simpa using hb1
              simp only [heq, beq_self_eq_true]
        revert hcond
        generalize List.range cols.length = idxs
        intro hcond
        induction idxs with
        | nil => rfl
        | cons i is ihl =>
          simp only [List.any_cons]
          rw [hcond i (List.mem_cons_self _ _),
            ihl (fun j hj => hcond j (List.mem_cons_of_mem _ hj))]

theorem joinField_name (a b : FieldC) : (joinField a b).name = a.name := by
  obtain ⟨k, t, pr, n⟩ := a
  obtain ⟨k2, t2, pr2, n2⟩ := b
  rfl

theorem fieldNames_cons (g : FieldC) (gs : List FieldC) :
    fieldNames (g :: gs) = g.name :: fieldNames gs := rfl

theorem lookupField_self {f : List FieldC}
    (hs : sortedSet strLt (fieldNames f) = true) {fa : FieldC} (hm : fa ∈ f) :
    lookupField fa.name f = some fa := by
  induction f with
  | nil => cases hm
  | cons g gs ih =>
    rw [fieldNames_cons] at hs
    rcases List.mem_cons.mp hm with rfl | hm2
    · simp [lookupField]
    · have hlt : strLt g.name fa.name = true :=
        sortedSet_head_lt lawful_strLt hs (List.mem_map_of_mem _ hm2)
      have hne : ¬(g.name = fa.name) := by
        intro he
        rw [he, strLt_irrefl] at hlt
        exact Bool.false_ne_true hlt
      simp only [lookupField, hne, if_false]
      exact ih (sortedSet_tail hs) hm2

theorem joinFieldsA_self_sub {f : List FieldC}
    (hs : sortedSet strLt (fieldNames f) = true) :
    ∀ sub : List FieldC, (∀ x ∈ sub, x ∈ f) →
      joinFieldsA sub f = sub.map (fun fa => joinField fa fa) := by
  intro sub
  induction sub with
  | nil => intro _; rfl
  | cons fa rest ih =>
    intro hsub
    have hfa : fa ∈ f := hsub fa (List.mem_cons_self _ _)
    simp only [joinFieldsA, lookupField_self hs hfa, List.map_cons]
    rw [ih (fun x hx => hsub x (List.mem_cons_of_mem _ hx))]

theorem containsField_iff (k : String) (l : List FieldC) :
    containsField k l = true ↔ k ∈ fieldNames l := by
  induction l with
  | nil => simp [containsField, fieldNames]
  | cons g gs ih =>
    simp only [containsField, fieldNames_cons, List.mem_cons, Bool.or_eq_true,
      decide_eq_true_eq, ih]
    constructor
    · rintro (h | h)
      · exact Or.inl h.symm
      · exact Or.inr h
    · rintro (h | h)
      · exact Or.inl h.symm
      · exact Or.inr h

theorem addMissing_none {b out : List FieldC}
    (h : ∀ fb ∈ b, containsField fb.name out = true) : addMissing b out = out := by
  induction b with
  | nil => rfl
  | cons fb rest ih =>
    simp only [addMissing, h fb (List.mem_cons_self _ _), if_true]
    exact ih (fun x hx => h x (List.mem_cons_of_mem _ hx))

theorem joinFields_self {f : List FieldC}
    (hs : sortedSet strLt (fieldNames f) = true) :
    joinFields f f = f.map (fun fa => joinField fa fa) := by
  unfold joinFields
  rw [joinFieldsA_self_sub hs f (fun x hx => hx)]
  apply addMissing_none
  intro fb hfb
  rw [containsField_iff]
  have hnames : fieldNames (f.map (fun fa => joinField fa fa)) = fieldNames f := by
    simp only [fieldNames, List.map_map]
    exact List.map_congr_left (fun a _ => joinField_name a a)
  rw [hnames]
  exact List.mem_map_of_mem _ hfb

theorem beq_add_self_cancel (a b : Nat) : (a + a == b + b) = (a == b) := by
  cases hb1 : a == b
  · have : a ≠ b := by simpa using hb1
    simp only [beq_eq_false_iff_ne, ne_eq]
    omega
  · have : a = b := by simpa using hb1
    simp [this]

theorem InvCols_mem {cols : List U} (h : InvCols cols = true) {c : U}
    (hc : c ∈ cols) : InvU c = true := by
  induction cols with
  | nil => cases hc
  | cons x xs ih =>
    simp only [InvCols, Bool.and_eq_true] at h
    rcases List.mem_cons.mp hc with rfl | hc2
    · exact h.1
    · exact ih h.2 hc2

theorem samplesOkCols_mem {cols : List U} (h : samplesOkCols cols = true) {c : U}
    (hc : c ∈ cols) : samplesOkU c = true := by
  induction cols with
  | nil => cases hc
  | cons x xs ih =>
    simp only [samplesOkCols, Bool.and_eq_true] at h
    rcases List.mem_cons.mp hc with rfl | hc2
    · exact h.1
    · exact ih h.2 hc2

theorem InvFields_mem {fs : List FieldC} (h : InvFields fs = true) {f : FieldC}
    (hf : f ∈ fs) : InvU f.ty = true := by
  induction fs with
  | nil => cases hf
  | cons g gs ih =>
    obtain ⟨k, ty, pin, nin⟩ := g
    simp only [InvFields, Bool.and_eq_true] at h
    rcases List.mem_cons.mp hf with rfl | hf2
    · exact h.1
    · exact ih h.2 hf2

theorem samplesOkFields_mem {fs : List FieldC} (h : samplesOkFields fs = true)
    {f : FieldC} (hf : f ∈ fs) : samplesOkU f.ty = true := by
  induction fs with
  | nil => cases hf
  | cons g gs ih =>
    obtain ⟨k, ty, pin, nin⟩ := g
    simp only [samplesOkFields, Bool.and_eq_true] at h
    rcases List.mem_cons.mp hf with rfl | hf2
    · exact h.1
    · exact ih h.2 hf2

theorem normFieldsCore_join_self (p : Policy) (sN : Nat) {f : List FieldC}
    (IH : ∀ fl ∈ f, normalize_to_norm p (join fl.ty fl.ty) = normalize_to_norm p fl.ty) :
    normFieldsCore p (sN + sN) (f.map (fun fa => joinField fa fa))
      = normFieldsCore p sN f := by
  induction f with
  | nil => rfl
  | cons g gs ih =>
    obtain ⟨k, ty, pin, nin⟩ := g
    have h1 := IH ⟨k, ty, pin, nin⟩ (List.mem_cons_self _ _)
    simp only [FieldC.ty] at h1
    simp only [List.map_cons, joinField, normFieldsCore, h1,
      beq_add_self_cancel]
    rw [ih (fun fl hfl => IH fl (List.mem_cons_of_mem _ hfl))]

theorem joinOptArr_isNone (o : Option ArrC) : (joinOptArr o o).isNone = o.isNone := by
  cases o <;> rfl

theorem joinOptObj_isNone (o : Option ObjC) : (joinOptObj o o).isNone = o.isNone := by
  cases o <;> rfl

theorem tuple_min_items_empty_cols (lm lx : Nat) (it : U) (pres nnl : List Nat)
    (smp : Nat) : tuple_min_items_arr (.mk lm lx it [] pres nnl smp) = 0 := rfl

/-- Normalizing the self-join of a built-shape lattice point gives the same
normalized IR as normalizing the point itself, provided no reachable array
record has exactly one sample. -/
theorem norm_join_self (p : Policy) :
    ∀ u, InvU u = true → samplesOkU u = true →
      normalize_to_norm p (join u u) = normalize_to_norm p u := by
  refine strongIndU
    (fun u => InvU u = true → samplesOkU u = true →
      normalize_to_norm p (join u u) = normalize_to_norm p u) ?_
  intro u IH hInv hOk
  obtain ⟨nl, hb, onum, ostr, oarr, oobj⟩ := u
  simp only [InvU, Bool.and_eq_true] at hInv
  obtain ⟨⟨⟨hnum, hstr⟩, harr⟩, hobj⟩ := hInv
  simp only [samplesOkU, Bool.and_eq_true] at hOk
  obtain ⟨hokArr, hokObj⟩ := hOk
  have hj : join (U.mk nl hb onum ostr oarr oobj) (U.mk nl hb onum ostr oarr oobj)
      = U.mk nl hb (joinOpt join_num onum onum) (joinOpt join_str ostr ostr)
          (joinOptArr oarr oarr) (joinOptObj oobj oobj) := by
    simp [join]
  rw [hj]
  have hA : armsArr p (joinOptArr oarr oarr) = armsArr p oarr := by
    cases oarr with
    | none => rfl
    | some a =>
      obtain ⟨lm, lx, it, cols, pres, nnl, smp⟩ := a
      simp only [InvArrOpt, InvArr, Bool.and_eq_true, beq_iff_eq] at harr
      obtain ⟨⟨⟨hplen, hnlen⟩, hitemInv⟩, hcolsInv⟩ := harr
      simp only [samplesOkArrOpt, samplesOkArr, Bool.and_eq_true,
        Bool.not_eq_true', beq_eq_false_iff_ne, ne_eq] at hokArr
      obtain ⟨⟨hs1, hitemOk⟩, hcolsOk⟩ := hokArr
      have hdt : decide_tuple (join_arr (.mk lm lx it cols pres nnl smp)
            (.mk lm lx it cols pres nnl smp))
          = decide_tuple (.mk lm lx it cols pres nnl smp) :=
        decide_tuple_join_self hplen hnlen hs1
      have hitem_eq : normalize_to_norm p (join it it) = normalize_to_norm p it :=
        IH it (sizeOf_item_lt nl hb onum ostr oobj lm lx it cols pres nnl smp)
          hitemInv hitemOk
      have hcols_eq : normCols p (joinCols cols cols) = normCols p cols := by
        have aux : ∀ cs : List U, (∀ c ∈ cs, c ∈ cols) →
            normCols p (joinCols cs cs) = normCols p cs := by
          intro cs
          induction cs with
          | nil => intro _; rfl
          | cons c cs2 ih =>
            intro hsub
            have hc : c ∈ cols := hsub c (List.mem_cons_self _ _)
            simp only [joinCols, normCols]
            rw [IH c (sizeOf_col_lt nl hb onum ostr oobj lm lx it cols pres nnl smp hc)
                (InvCols_mem hcolsInv hc) (samplesOkCols_mem hcolsOk hc),
              ih (fun x hx => hsub x (List.mem_cons_of_mem _ hx))]
        exact aux cols (fun c hc => hc)
      simp only [join_arr, min_self, max_self, Nat.max_self] at hdt
      simp only [joinOptArr, join_arr, armsArr, min_self, max_self, Nat.max_self,
        hdt, hitem_eq, hcols_eq, tuple_min_items_empty_cols]
  have hO : armsObj p (joinOptObj oobj oobj) = armsObj p oobj := by
    clear hj hA
    revert hobj hokObj
    cases oobj with
    | none => intro _ _; rfl
    | some o =>
      intro hobj hokObj
      obtain ⟨fs, seen⟩ := o
      simp only [InvObjOpt, InvObj, ObjC.fields, Bool.and_eq_true] at hobj
      obtain ⟨hsort, hflds⟩ := hobj
      simp only [samplesOkObjOpt] at hokObj
      have hIHf : ∀ fl ∈ fs, normalize_to_norm p (join fl.ty fl.ty)
          = normalize_to_norm p fl.ty := by
        intro fl hfl
        exact IH fl.ty (sizeOf_field_ty_lt nl hb onum ostr oarr fs seen hfl)
          (InvFields_mem hflds hfl) (samplesOkFields_mem hokObj hfl)
      have hjo : join_obj (ObjC.mk fs seen) (ObjC.mk fs seen)
          = ObjC.mk (joinFields fs fs) (seen + seen) := rfl
      simp only [joinOptObj, hjo, joinFields_self hsort, armsObj,
        normFieldsCore_join_self p seen hIHf]
  have hN := armsNum_join_self hnum
  have hS := armsStr_join_self p hstr
  have hnullEq : (U.mk nl hb (joinOpt join_num onum onum) (joinOpt join_str ostr ostr)
        (joinOptArr oarr oarr) (joinOptObj oobj oobj)).is_exact_null
      = (U.mk nl hb onum ostr oarr oobj).is_exact_null := by
    simp only [U.is_exact_null, U.nullable, U.has_bool, U.num, U.str_, U.arr, U.obj,
      joinOpt_isNone, joinOptArr_isNone, joinOptObj_isNone]
  simp only [normalize_to_norm, hnullEq, hA, hO, hN, hS]

-- ===================== Preservation of the invariant ====================== --

theorem InvU_padNull (v : U) : InvU (padNull v) = InvU v := by
  obtain ⟨nl, hb, onum, ostr, oarr, oobj⟩ := v
  rfl

theorem joinCols_length (xs ys : List U) :
    (joinCols xs ys).length = max xs.length ys.length := by
  induction xs generalizing ys with
  | nil => simp [joinCols]
  | cons x xs2 ih =>
    cases ys with
    | nil => simp [joinCols]
    | cons y ys2 =>
      simp [joinCols, ih ys2]
      omega

theorem countsAt_length (n : Nat) (xs ys : List Nat) :
    (countsAt n xs ys).length = n := by
  simp [countsAt]

theorem InvCols_map_padNull (l : List U) :
    InvCols (l.map padNull) = InvCols l := by
  induction l with
  | nil => rfl
  | cons x xs ih => simp [InvCols, InvU_padNull, ih]

theorem InvNum_join {a b : NumC} (hb2 : InvNum b = true) :
    InvNum (join_num a b) = true := by
  obtain ⟨la, mna, mxa, sia, sua, sfa⟩ := a
  obtain ⟨lb, mnb, mxb, sib, sub2, sfb⟩ := b
  simp only [InvNum, Bool.and_eq_true, decide_eq_true_eq] at hb2 ⊢
  obtain ⟨hsb, _⟩ := hb2
  simp only [join_num]
  by_cases hc : MAX_NUM_LITS < (unionSet qLt la lb).length
  · simp [hc, sortedSet]
  · simp only [hc, if_false]
    exact ⟨sorted_unionSet lawful_qLt la hsb, by omega⟩

theorem InvStr_join {a b : StrC} (hb2 : InvStr b = true) :
    InvStr (join_str a b) = true := by
  obtain ⟨la, ua, pa, ka⟩ := a
  obtain ⟨lb, ub, pb, kb⟩ := b
  simp only [InvStr, Bool.and_eq_true, decide_eq_true_eq] at hb2 ⊢
  obtain ⟨⟨⟨hsb, _⟩, _⟩, _⟩ := hb2
  simp only [join_str]
  by_cases hc : MAX_STR_LITS < (unionSet strLt la lb).length
  · simp [hc, sortedSet]
  · simp only [hc, if_false]
    refine ⟨⟨⟨sorted_unionSet lawful_strLt la hsb, by omega⟩, rfl⟩, rfl⟩

theorem lookupField_mem {k : String} {l : List FieldC} {f : FieldC}
    (h : lookupField k l = some f) : f ∈ l := by
  induction l with
  | nil => simp [lookupField] at h
  | cons g gs ih =>
    by_cases he : g.name = k
    · simp only [lookupField, he, if_pos rfl] at h
      cases h
      exact List.mem_cons_self _ _
    · simp only [lookupField, he, if_false] at h
      exact List.mem_cons_of_mem _ (ih h)

theorem fieldNames_joinFieldsA (sub b : List FieldC) :
    fieldNames (joinFieldsA sub b) = fieldNames sub := by
  induction sub with
  | nil => rfl
  | cons fa rest ih =>
    simp only [joinFieldsA, fieldNames_cons]
    cases hl : lookupField fa.name b with
    | none => simp only [fieldNames_cons, ih]
    | some fb =>
      simp only [fieldNames_cons, joinField_name, ih]

theorem InvFields_joinFieldsA {sub b : List FieldC} (hsub : InvFields sub = true)
    (hb2 : InvFields b = true)
    (hjoin : ∀ x ∈ sub, ∀ y ∈ b, InvU (join x.ty y.ty) = true) :
    InvFields (joinFieldsA sub b) = true := by
  induction sub with
  | nil => rfl
  | cons fa rest ih =>
    obtain ⟨k, ty, pin, nin⟩ := fa
    simp only [InvFields, Bool.and_eq_true] at hsub
    cases hl : lookupField (FieldC.mk k ty pin nin).name b with
    | none =>
      simp only [joinFieldsA, hl, InvFields, Bool.and_eq_true]
      exact ⟨hsub.1, ih hsub.2 (fun x hx y hy => hjoin x (List.mem_cons_of_mem _ hx) y hy)⟩
    | some fb =>
      obtain ⟨k2, ty2, pin2, nin2⟩ := fb
      simp only [joinFieldsA, hl, joinField, InvFields, Bool.and_eq_true]
      constructor
      · have := hjoin ⟨k, ty, pin, nin⟩ (List.mem_cons_self _ _)
          ⟨k2, ty2, pin2, nin2⟩ (lookupField_mem hl)
        simpa [FieldC.ty] using this
      · exact ih hsub.2 (fun x hx y hy => hjoin x (List.mem_cons_of_mem _ hx) y hy)

theorem fieldNames_insSortedField (f : FieldC) (l : List FieldC) :
    fieldNames (insSortedField f l) = insSet strLt f.name (fieldNames l)
    ∨ fieldNames (insSortedField f l) = fieldNames l := by
  induction l with
  | nil => left; rfl
  | cons g gs ih =>
    by_cases h1 : strLt f.name g.name = true
    · left
      simp [insSortedField, h1, insSet, fieldNames]
    · rw [Bool.not_eq_true] at h1
      by_cases h2 : strLt g.name f.name = true
      · simp only [insSortedField, h1, Bool.false_eq_true, if_false, h2, if_true,
          fieldNames_cons, insSet, Bool.false_eq_true]
        rcases ih with ih | ih
        · left
          rw [ih]
          rfl
        · right
          rw [ih]
      · rw [Bool.not_eq_true] at h2
        right
        have he : f.name = g.name := strLt_conn h1 h2
        simp only [insSortedField, he, strLt_irrefl, Bool.false_eq_true, if_false,
          fieldNames, List.map_cons]

theorem InvFields_insSortedField {f : FieldC} {l : List FieldC}
    (hf : InvU f.ty = true) (hl : InvFields l = true) :
    InvFields (insSortedField f l) = true := by
  induction l with
  | nil =>
    obtain ⟨k, ty, pin, nin⟩ := f
    simpa [insSortedField, InvFields] using hf
  | cons g gs ih =>
    obtain ⟨k2, ty2, pin2, nin2⟩ := g
    simp only [InvFields, Bool.and_eq_true] at hl
    by_cases h1 : strLt f.name (FieldC.mk k2 ty2 pin2 nin2).name = true
    · obtain ⟨k, ty, pin, nin⟩ := f
      simp only [insSortedField, h1, if_true, InvFields, Bool.and_eq_true]
      simp only [FieldC.ty] at hf
      exact ⟨hf, hl.1, hl.2⟩
    · rw [Bool.not_eq_true] at h1
      by_cases h2 : strLt (FieldC.mk k2 ty2 pin2 nin2).name f.name = true
      · simp only [insSortedField, h1, Bool.false_eq_true, if_false, h2, if_true,
          InvFields, Bool.and_eq_true]
        exact ⟨hl.1, ih hl.2⟩
      · rw [Bool.not_eq_true] at h2
        obtain ⟨k, ty, pin, nin⟩ := f
        simp only [insSortedField, h1, Bool.false_eq_true, if_false, h2,
          InvFields, Bool.and_eq_true]
        simp only [FieldC.ty] at hf
        exact ⟨hf, hl.2⟩

theorem sorted_insSortedField {f : FieldC} {l : List FieldC} (L : LawfulLt strLt)
    (hs : sortedSet strLt (fieldNames l) = true) :
    sortedSet strLt (fieldNames (insSortedField f l)) = true := by
  rcases fieldNames_insSortedField f l with h | h
  · rw [h]
    exact sorted_insSet L f.name hs
  · rw [h]
    exact hs

theorem InvFields_addMissing {b out : List FieldC} (hb2 : InvFields b = true)
    (hout : InvFields out = true) (hsout : sortedSet strLt (fieldNames out) = true) :
    InvFields (addMissing b out) = true ∧
      sortedSet strLt (fieldNames (addMissing b out)) = true := by
  induction b generalizing out with
  | nil => exact ⟨hout, hsout⟩
  | cons fb rest ih =>
    obtain ⟨k2, ty2, pin2, nin2⟩ := fb
    simp only [InvFields, Bool.and_eq_true] at hb2
    simp only [addMissing]
    by_cases hc : containsField (FieldC.mk k2 ty2 pin2 nin2).name out = true
    · rw [if_pos hc]
      exact ih hb2.2 hout hsout
    · rw [if_neg hc]
      exact ih hb2.2 (InvFields_insSortedField (by simpa [FieldC.ty] using hb2.1) hout)
        (sorted_insSortedField lawful_strLt hsout)

/-- Strong induction on the total size of a pair of lattice points. -/
theorem strongIndU2 (motive : U → U → Prop)
    (step : ∀ a b, (∀ x y, sizeOf x + sizeOf y < sizeOf a + sizeOf b → motive x y) →
      motive a b) : ∀ a b, motive a b := by
  have H : ∀ n (a b : U), sizeOf a + sizeOf b ≤ n → motive a b := by
    intro n
    induction n with
    | zero =>
      intro a b h
      exact step a b (fun x y hxy => absurd (Nat.lt_of_lt_of_le hxy h) (Nat.not_lt_zero _))
    | succ n ih =>
      intro a b h
      exact step a b (fun x y hxy => ih x y (Nat.le_of_lt_succ (Nat.lt_of_lt_of_le hxy h)))
  exact fun a b => H (sizeOf a + sizeOf b) a b (Nat.le_refl _)

theorem InvCols_joinCols {c1 c2 : List U} (h1 : InvCols c1 = true)
    (h2 : InvCols c2 = true)
    (hj : ∀ x ∈ c1, ∀ y ∈ c2, InvU (join x y) = true) :
    InvCols (joinCols c1 c2) = true := by
  induction c1 generalizing c2 with
  | nil =>
    have e : joinCols [] c2 = c2.map padNull := by cases c2 <;> rfl
    rw [e, InvCols_map_padNull]
    exact h2
  | cons x xs ih =>
    cases c2 with
    | nil =>
      rw [show joinCols (x :: xs) [] = (x :: xs).map padNull from rfl,
        InvCols_map_padNull]
      exact h1
    | cons y ys =>
      simp only [InvCols, Bool.and_eq_true] at h1 h2
      simp only [joinCols, InvCols, Bool.and_eq_true]
      refine ⟨hj x (List.mem_cons_self _ _) y (List.mem_cons_self _ _), ?_⟩
      exact ih h1.2 h2.2
        (fun a ha b hb3 => hj a (List.mem_cons_of_mem _ ha) b (List.mem_cons_of_mem _ hb3))

theorem sizeOf_col_pair_lt (nl1 hb1 : Bool) (onum1 : Option NumC)
    (ostr1 : Option StrC) (oobj1 : Option ObjC) (nl2 hb2 : Bool)
    (onum2 : Option NumC) (ostr2 : Option StrC) (oobj2 : Option ObjC)
    (a1 a2 : ArrC) {x y : U} (hx : x ∈ a1.cols) (hy : y ∈ a2.cols) :
    sizeOf x + sizeOf y <
      sizeOf (U.mk nl1 hb1 onum1 ostr1 (some a1) oobj1)
        + sizeOf (U.mk nl2 hb2 onum2 ostr2 (some a2) oobj2) := by
  obtain ⟨lm1, lx1, it1, cols1, p1, n1, s1⟩ := a1
  obtain ⟨lm2, lx2, it2, cols2, p2, n2, s2⟩ := a2
  simp only [ArrC.cols] at hx hy
  have h1 : sizeOf x < sizeOf cols1 := List.sizeOf_lt_of_mem hx
  have h2 : sizeOf y < sizeOf cols2 := List.sizeOf_lt_of_mem hy
  simp
  omega

theorem sizeOf_item_pair_lt (nl1 hb1 : Bool) (onum1 : Option NumC)
    (ostr1 : Option StrC) (oobj1 : Option ObjC) (nl2 hb2 : Bool)
    (onum2 : Option NumC) (ostr2 : Option StrC) (oobj2 : Option ObjC)
    (a1 a2 : ArrC) :
    sizeOf a1.item + sizeOf a2.item <
      sizeOf (U.mk nl1 hb1 onum1 ostr1 (some a1) oobj1)
        + sizeOf (U.mk nl2 hb2 onum2 ostr2 (some a2) oobj2) := by
  obtain ⟨lm1, lx1, it1, cols1, p1, n1, s1⟩ := a1
  obtain ⟨lm2, lx2, it2, cols2, p2, n2, s2⟩ := a2
  simp only [ArrC.item]
  simp
  omega

theorem sizeOf_field_pair_lt (nl1 hb1 : Bool) (onum1 : Option NumC)
    (ostr1 : Option StrC) (oarr1 : Option ArrC) (nl2 hb2 : Bool)
    (onum2 : Option NumC) (ostr2 : Option StrC) (oarr2 : Option ArrC)
    (o1 o2 : ObjC) {x y : FieldC} (hx : x ∈ o1.fields) (hy : y ∈ o2.fields) :
    sizeOf x.ty + sizeOf y.ty <
      sizeOf (U.mk nl1 hb1 onum1 ostr1 oarr1 (some o1))
        + sizeOf (U.mk nl2 hb2 onum2 ostr2 oarr2 (some o2)) := by
  obtain ⟨fs1, s1⟩ := o1
  obtain ⟨fs2, s2⟩ := o2
  simp only [ObjC.fields] at hx hy
  have h1 : sizeOf x < sizeOf fs1 := List.sizeOf_lt_of_mem hx
  have h2 : sizeOf y < sizeOf fs2 := List.sizeOf_lt_of_mem hy
  obtain ⟨k1, ty1, p1, n1⟩ := x
  obtain ⟨k2, ty2, p2, n2⟩ := y
  simp only [FieldC.ty]
  simp at h1 h2 ⊢
  omega

/-- The structural invariant is preserved by `join`. -/
theorem InvU_join : ∀ a b, InvU a = true → InvU b = true →
    InvU (join a b) = true := by
  refine strongIndU2 (fun a b => InvU a = true → InvU b = true →
    InvU (join a b) = true) ?_
  intro a b IH hia hib
  obtain ⟨nl1, hb1, onum1, ostr1, oarr1, oobj1⟩ := a
  obtain ⟨nl2, hb2, onum2, ostr2, oarr2, oobj2⟩ := b
  simp only [InvU, Bool.and_eq_true] at hia hib
  obtain ⟨⟨⟨hnum1, hstr1⟩, harr1⟩, hobj1⟩ := hia
  obtain ⟨⟨⟨hnum2, hstr2⟩, harr2⟩, hobj2⟩ := hib
  simp only [join, InvU, Bool.and_eq_true]
  refine ⟨⟨⟨?_, ?_⟩, ?_⟩, ?_⟩
  · cases onum1 with
    | none =>
      cases onum2 with
      | none => rfl
      | some n2 => exact hnum2
    | some n1 =>
      cases onum2 with
      | none => exact hnum1
      | some n2 =>
        simp only [joinOpt, InvNumOpt]
        exact InvNum_join (by simpa [InvNumOpt] using hnum2)
  · cases ostr1 with
    | none =>
      cases ostr2 with
      | none => rfl
      | some s2 => exact hstr2
    | some s1 =>
      cases ostr2 with
      | none => exact hstr1
      | some s2 =>
        simp only [joinOpt, InvStrOpt]
        exact InvStr_join (by simpa [InvStrOpt] using hstr2)
  · cases oarr1 with
    | none =>
      cases oarr2 with
      | none => rfl
      | some a2 => exact harr2
    | some a1 =>
      cases oarr2 with
      | none => exact harr1
      | some a2 =>
        simp only [joinOptArr, InvArrOpt]
        obtain ⟨lm1, lx1, it1, cols1, p1, n1, s1⟩ := a1
        obtain ⟨lm2, lx2, it2, cols2, p2, n2, s2⟩ := a2
        simp only [InvArrOpt, InvArr, Bool.and_eq_true, beq_iff_eq] at harr1 harr2
        obtain ⟨⟨⟨hp1, hn1⟩, hit1⟩, hc1⟩ := harr1
        obtain ⟨⟨⟨hp2, hn2⟩, hit2⟩, hc2⟩ := harr2
        simp only [join_arr, InvArr, Bool.and_eq_true, beq_iff_eq]
        refine ⟨⟨⟨?_, ?_⟩, ?_⟩, ?_⟩
        · rw [countsAt_length, joinCols_length]
        · rw [countsAt_length, joinCols_length]
        · exact IH it1 it2
            (sizeOf_item_pair_lt nl1 hb1 onum1 ostr1 oobj1 nl2 hb2 onum2 ostr2 oobj2
              (.mk lm1 lx1 it1 cols1 p1 n1 s1) (.mk lm2 lx2 it2 cols2 p2 n2 s2))
            hit1 hit2
        · refine InvCols_joinCols hc1 hc2 ?_
          intro x hx y hy
          exact IH x y
            (sizeOf_col_pair_lt nl1 hb1 onum1 ostr1 oobj1 nl2 hb2 onum2 ostr2 oobj2
              (.mk lm1 lx1 it1 cols1 p1 n1 s1) (.mk lm2 lx2 it2 cols2 p2 n2 s2) hx hy)
            (InvCols_mem hc1 hx) (InvCols_mem hc2 hy)
  · cases oobj1 with
    | none =>
      cases oobj2 with
      | none => rfl
      | some o2 => exact hobj2
    | some o1 =>
      cases oobj2 with
      | none => exact hobj1
      | some o2 =>
        simp only [joinOptObj, InvObjOpt]
        obtain ⟨fs1, s1⟩ := o1
        obtain ⟨fs2, s2⟩ := o2
        simp only [InvObjOpt, InvObj, ObjC.fields, Bool.and_eq_true] at hobj1 hobj2
        obtain ⟨hsort1, hf1⟩ := hobj1
        obtain ⟨hsort2, hf2⟩ := hobj2
        have hjoin : ∀ x ∈ fs1, ∀ y ∈ fs2, InvU (join x.ty y.ty) = true := by
          intro x hx y hy
          exact IH x.ty y.ty
            (sizeOf_field_pair_lt nl1 hb1 onum1 ostr1 oarr1 nl2 hb2 onum2 ostr2 oarr2
              (.mk fs1 s1) (.mk fs2 s2) hx hy)
            (InvFields_mem hf1 hx) (InvFields_mem hf2 hy)
        have hA : InvFields (joinFieldsA fs1 fs2) = true :=
          InvFields_joinFieldsA hf1 hf2 hjoin
        have hAs : sortedSet strLt (fieldNames (joinFieldsA fs1 fs2)) = true := by
          rw [fieldNames_joinFieldsA]
          exact hsort1
        have := InvFields_addMissing hf2 hA hAs
        simp only [join_obj, InvObj, ObjC.fields, Bool.and_eq_true]
        exact ⟨this.2, this.1⟩

/-- Strong induction on the size of a JSON value. -/
theorem strongIndJson (motive : Json → Prop)
    (step : ∀ v, (∀ w, sizeOf w < sizeOf v → motive w) → motive v) :
    ∀ v, motive v := by
  have H : ∀ n (v : Json), sizeOf v ≤ n → motive v := by
    intro n
    induction n with
    | zero =>
      intro v h
      exact step v (fun w hw => absurd (Nat.lt_of_lt_of_le hw h) (Nat.not_lt_zero _))
    | succ n ih =>
      intro v h
      exact step v (fun w hw => ih w (Nat.le_of_lt_succ (Nat.lt_of_lt_of_le hw h)))
  exact fun v => H (sizeOf v) v (Nat.le_refl _)

theorem sizeOf_arr_elem_lt {xs : List Json} {x : Json} (hx : x ∈ xs) :
    sizeOf x < sizeOf (Json.arr xs) := by
  have h1 : sizeOf x < sizeOf xs := List.sizeOf_lt_of_mem hx
  simp
  omega

theorem sizeOf_obj_val_lt {m : List (String × Json)} {k : String} {v : Json}
    (hm : (k, v) ∈ m) : sizeOf v < sizeOf (Json.obj m) := by
  have h1 : sizeOf (k, v) < sizeOf m := List.sizeOf_lt_of_mem hm
  simp at h1 ⊢
  omega

theorem wfJsonList_mem {xs : List Json} (h : wfJsonList xs = true) {x : Json}
    (hx : x ∈ xs) : wfJson x = true := by
  induction xs with
  | nil => cases hx
  | cons y ys ih =>
    simp only [wfJsonList, Bool.and_eq_true] at h
    rcases List.mem_cons.mp hx with rfl | hx2
    · exact h.1
    · exact ih h.2 hx2

theorem wfJsonPairs_mem {m : List (String × Json)} (h : wfJsonPairs m = true)
    {k : String} {v : Json} (hm : (k, v) ∈ m) : wfJson v = true := by
  induction m with
  | nil => cases hm
  | cons y ys ih =>
    obtain ⟨k2, v2⟩ := y
    simp only [wfJsonPairs, Bool.and_eq_true] at h
    rcases List.mem_cons.mp hm with he | hm2
    · cases he
      exact h.1
    · exact ih h.2 hm2

theorem InvNum_observe_num (n : JNum) : InvNum (observe_num n) = true := by
  cases n with
  | posInt k =>
    by_cases h : k ≤ I64_MAX <;>
      simp [observe_num, h, InvNum, sortedSet, MAX_NUM_LITS]
  | negInt i => simp [observe_num, InvNum, sortedSet, MAX_NUM_LITS]
  | float q => simp [observe_num, InvNum, sortedSet, MAX_NUM_LITS]

theorem observe_cols_length (xs : List Json) :
    (observe_cols xs).length = xs.length := by
  induction xs with
  | nil => rfl
  | cons x r ih => simp [observe_cols, ih]

theorem nonNullBits_length (xs : List Json) :
    (nonNullBits xs).length = xs.length := by
  induction xs with
  | nil => rfl
  | cons x r ih => cases x <;> simp [nonNullBits, ih]

theorem observe_item_Inv {xs : List Json}
    (h : ∀ x ∈ xs, InvU (observe_value x) = true) :
    ∀ {acc : U}, InvU acc = true → InvU (observe_item acc xs) = true := by
  induction xs with
  | nil => intro acc hacc; exact hacc
  | cons x r ih =>
    intro acc hacc
    simp only [observe_item]
    exact ih (fun y hy => h y (List.mem_cons_of_mem _ hy))
      (InvU_join acc (observe_value x) hacc (h x (List.mem_cons_self _ _)))

theorem observe_cols_Inv {xs : List Json}
    (h : ∀ x ∈ xs, InvU (observe_value x) = true) :
    InvCols (observe_cols xs) = true := by
  induction xs with
  | nil => rfl
  | cons x r ih =>
    simp only [observe_cols, InvCols, Bool.and_eq_true, join_empty_left]
    exact ⟨h x (List.mem_cons_self _ _), ih (fun y hy => h y (List.mem_cons_of_mem _ hy))⟩

theorem fieldNames_observe_fields (m : List (String × Json)) :
    fieldNames (observe_fields m) = m.map Prod.fst := by
  induction m with
  | nil => rfl
  | cons y ys ih =>
    obtain ⟨k, v⟩ := y
    cases v <;> simp [observe_fields, fieldNames_cons, FieldC.name] <;>
      simpa [fieldNames] using ih

theorem keysSorted_eq (m : List (String × Json)) :
    keysSorted m = sortedSet strLt (m.map Prod.fst) := by
  induction m with
  | nil => rfl
  | cons y ys ih =>
    obtain ⟨k, v⟩ := y
    cases ys with
    | nil => rfl
    | cons z zs =>
      obtain ⟨k2, v2⟩ := z
      simp only [keysSorted, List.map_cons, sortedSet]
      rw [ih]
      rfl

theorem observe_fields_Inv {m : List (String × Json)}
    (h : ∀ k v, (k, v) ∈ m → InvU (observe_value v) = true) :
    InvFields (observe_fields m) = true := by
  induction m with
  | nil => rfl
  | cons y ys ih =>
    obtain ⟨k, v⟩ := y
    have hv := h k v (List.mem_cons_self _ _)
    have hrest := ih (fun k2 v2 hm => h k2 v2 (List.mem_cons_of_mem _ hm))
    cases v <;> simp only [observe_fields, InvFields, Bool.and_eq_true] <;>
      exact ⟨hv, hrest⟩

/-- Every observation of a well-formed document satisfies the structural
invariant. -/
theorem InvU_observe : ∀ v, wfJson v = true → InvU (observe_value v) = true := by
  refine strongIndJson (fun v => wfJson v = true → InvU (observe_value v) = true) ?_
  intro v IH hwf
  cases v with
  | null => rfl
  | bool b => rfl
  | num n =>
    simp only [observe_value, InvU, InvNumOpt, InvStrOpt, InvArrOpt, InvObjOpt,
      Bool.and_eq_true]
    exact ⟨⟨⟨InvNum_observe_num n, trivial⟩, trivial⟩, trivial⟩
  | str s =>
    simp only [observe_value, InvU, InvNumOpt, InvStrOpt, InvArrOpt, InvObjOpt,
      Bool.and_eq_true]
    refine ⟨⟨⟨trivial, ?_⟩, trivial⟩, trivial⟩
    simp [InvStr, sortedSet, MAX_STR_LITS]
  | arr xs =>
    simp only [wfJson] at hwf
    have helem : ∀ x ∈ xs, InvU (observe_value x) = true := by
      intro x hx
      exact IH x (sizeOf_arr_elem_lt hx) (wfJsonList_mem hwf hx)
    simp only [observe_value, InvU, InvNumOpt, InvStrOpt, InvArrOpt, InvObjOpt,
      InvArr, Bool.and_eq_true, beq_iff_eq]
    refine ⟨⟨⟨trivial, trivial⟩, ⟨⟨⟨?_, ?_⟩, ?_⟩, ?_⟩⟩, trivial⟩
    · rw [List.length_replicate, observe_cols_length]
    · rw [nonNullBits_length, observe_cols_length]
    · exact observe_item_Inv helem rfl
    · exact observe_cols_Inv helem
  | obj m =>
    simp only [wfJson, Bool.and_eq_true] at hwf
    obtain ⟨hks, hvals⟩ := hwf
    simp only [observe_value, InvU, InvNumOpt, InvStrOpt, InvArrOpt, InvObjOpt,
      InvObj, ObjC.fields, Bool.and_eq_true]
    refine ⟨⟨⟨trivial, trivial⟩, trivial⟩, ?_, ?_⟩
    · rw [fieldNames_observe_fields, ← keysSorted_eq]
      exact hks
    · refine observe_fields_Inv ?_
      intro k v hm
      exact IH v (sizeOf_obj_val_lt hm) (wfJsonPairs_mem hvals hm)

/-- Every lattice point built from observed well-formed documents satisfies
the structural invariant. -/
theorem Built_Inv {u : U} (h : Built u) : InvU u = true := by
  induction h with
  | obs v hv => exact InvU_observe v hv
  | joined a b _ _ iha ihb => exact InvU_join a b iha ihb

-- ============================ Claim C1 ==================================== --

/-- A concrete policy valuation with both optional string policies disabled
and trivial external learners, used for closed evaluations. -/
def pFlagsOff : Policy := ⟨false, false, fun _ => "", fun _ => 0⟩

/-- A concrete policy valuation with `ENABLE_STRING_ENUMS` on and
`ENABLE_GREX` off. -/
def pEnumsOn : Policy := ⟨true, false, fun _ => "", fun _ => 0⟩

/-- Claim C1, counterexample: for the lattice point built by observing the
single document `[null]`, normalizing the self-join yields a different
normalized result than normalizing the point itself — the self-join doubles
`samples` from 1 to 2, which flips `decide_tuple` from list to tuple
(`ArrayList` on the right, `ArrayTuple` on the left). -/
theorem c1_counterexample :
    Built (observe_value (Json.arr [Json.null])) ∧
      normalize_to_norm pFlagsOff
          (join (observe_value (Json.arr [Json.null]))
            (observe_value (Json.arr [Json.null])))
        ≠ normalize_to_norm pFlagsOff (observe_value (Json.arr [Json.null])) := by
  constructor
  · exact Built.obs _ rfl
  · intro h
    have h1 : normalize_to_norm pFlagsOff
        (join (observe_value (Json.arr [Json.null]))
          (observe_value (Json.arr [Json.null])))
        = NTy.arrayTuple [NTy.null] 1 1 := rfl
    have h2 : normalize_to_norm pFlagsOff (observe_value (Json.arr [Json.null]))
        = NTy.arrayList NTy.null (some 1) (some 1) := rfl
    rw [h1, h2] at h
    exact NTy.noConfusion h

/-- Claim C1 (amended): for every lattice point `u` built from observed JSON
values in which no array record carries exactly one sample, normalizing the
join of `u` with itself yields the same normalized result as normalizing `u`
alone, for every policy valuation; the counts (`samples`, `seen_objects`,
`present`, `non_null`) double under the join but the observable schema is
unchanged.  (The `samples ≠ 1` restriction is forced by `c1_counterexample`:
doubling a single sample crosses the `decide_tuple` threshold.) -/
theorem c1_normalize_join_self (p : Policy) (u : U) (hb : Built u)
    (hs : samplesOkU u = true) :
    normalize_to_norm p (join u u) = normalize_to_norm p u :=
  norm_join_self p u (Built_Inv hb) hs

/-- Witness for C1: a two-document corpus of one-element arrays (every array
record has two samples). -/
theorem c1_witness :
    samplesOkU (join (observe_value (Json.arr [Json.str "a"]))
        (observe_value (Json.arr [Json.str "b"]))) = true ∧
      normalize_to_norm pFlagsOff
          (join (join (observe_value (Json.arr [Json.str "a"]))
              (observe_value (Json.arr [Json.str "b"])))
            (join (observe_value (Json.arr [Json.str "a"]))
              (observe_value (Json.arr [Json.str "b"]))))
        = normalize_to_norm pFlagsOff
            (join (observe_value (Json.arr [Json.str "a"]))
              (observe_value (Json.arr [Json.str "b"]))) :=
  ⟨by decide,
   c1_normalize_join_self pFlagsOff _
     (Built.joined _ _ (Built.obs _ rfl) (Built.obs _ rfl)) (by decide)⟩

-- ===================== Nullable-shape invariant (C10) ===================== --

/-- Discriminator for the `NTy::Nullable` constructor. -/
def isNullableNTy : NTy → Bool
  | .nullable _ => true
  | _ => false

mutual

/-- The nullable-shape invariant: no `Nullable(Null)` and no
`Nullable(Nullable _)` anywhere in the tree — every nullable wrapper sits
directly around a non-null, non-nullable inhabitant. -/
def wfNullable : NTy → Bool
  | .null => true
  | .bool => true
  | .integer _ _ => true
  | .number _ _ => true
  | .string _ _ _ => true
  | .arrayList it _ _ => wfNullable it
  | .arrayTuple es _ _ => wfNullableList es
  | .object fs => wfNullableFields fs
  | .nullable inner =>
      !isNullNTy inner && !isNullableNTy inner && wfNullable inner
  | .oneOf xs => wfNullableList xs
termination_by structural t => t

/-- `wfNullable` on every element of a list. -/
def wfNullableList : List NTy → Bool
  | [] => true
  | t :: ts => wfNullable t && wfNullableList ts
termination_by structural l => l

/-- `wfNullable` on every field type of a normalized field list. -/
def wfNullableFields : List NField → Bool
  | [] => true
  | .mk _ t _ :: fs => wfNullable t && wfNullableFields fs
termination_by structural l => l

end

theorem wfNullableList_mem (l : List NTy) :
    wfNullableList l = true ↔ ∀ t ∈ l, wfNullable t = true := by
  induction l with
  | nil => simp [wfNullableList]
  | cons x xs ih => simp [wfNullableList, ih]

theorem wfNullableFields_mem (l : List NField) :
    wfNullableFields l = true ↔ ∀ f ∈ l, wfNullable f.ty = true := by
  induction l with
  | nil => simp [wfNullableFields]
  | cons f fs ih =>
    obtain ⟨k, t, r⟩ := f
    simp [wfNullableFields, ih, NField.ty]

theorem mem_insNField (f g : NField) (l : List NField) :
    g ∈ insNField f l ↔ g = f ∨ g ∈ l := by
  induction l with
  | nil => simp [insNField]
  | cons a t ih =>
    simp only [insNField]
    split
    · simp only [List.mem_cons, ih]
      tauto
    · simp only [List.mem_cons]

theorem mem_sortNFields (g : NField) (l : List NField) :
    g ∈ sortNFields l ↔ g ∈ l := by
  induction l with
  | nil => simp [sortNFields]
  | cons f fs ih => simp [sortNFields, mem_insNField, ih]

theorem normFieldsCore_mem (p : Policy) (seen : Nat) (fs : List FieldC) :
    ∀ f ∈ normFieldsCore p seen fs, ∃ g ∈ fs, f.ty = normalize_to_norm p g.ty := by
  induction fs with
  | nil => intro f hf; cases hf
  | cons a r ih =>
    obtain ⟨k, ty, pin, nin⟩ := a
    intro f hf
    simp only [normFieldsCore, List.mem_cons] at hf
    rcases hf with hf | hf
    · exact ⟨⟨k, ty, pin, nin⟩, List.mem_cons_self _ _, by simp [hf, NField.ty, FieldC.ty]⟩
    · obtain ⟨g, hg, he⟩ := ih f hf
      exact ⟨g, List.mem_cons_of_mem _ hg, he⟩

theorem numArm_good (n : NumC) :
    isNullNTy (numArm n) = false ∧ isNullableNTy (numArm n) = false ∧
      wfNullable (numArm n) = true := by
  have hs : (∃ a b, numArm n = NTy.integer a b)
      ∨ (∃ a b, numArm n = NTy.number a b) := by
    simp only [numArm]
    split
    · exact Or.inl ⟨_, _, rfl⟩
    · exact Or.inr ⟨_, _, rfl⟩
  rcases hs with ⟨a, b, h⟩ | ⟨a, b, h⟩ <;> rw [h] <;> exact ⟨rfl, rfl, rfl⟩

theorem strArm_good (p : Policy) (sc : StrC) :
    isNullNTy (strArm p sc) = false ∧ isNullableNTy (strArm p sc) = false ∧
      wfNullable (strArm p sc) = true := by
  have hs : ∃ e rx f, strArm p sc = NTy.string e rx f := by
    simp only [strArm]
    split
    · exact ⟨_, _, _, rfl⟩
    · split
      · exact ⟨_, _, _, rfl⟩
      · exact ⟨_, _, _, rfl⟩
  obtain ⟨e, rx, f, h⟩ := hs
  rw [h]
  exact ⟨rfl, rfl, rfl⟩

theorem simplify_norm_unions_good (xs : List NTy) (hne : xs ≠ [])
    (h : ∀ t ∈ xs, isNullNTy t = false ∧ isNullableNTy t = false ∧
      wfNullable t = true) :
    isNullNTy (simplify_norm_unions xs) = false ∧
      isNullableNTy (simplify_norm_unions xs) = false ∧
      wfNullable (simplify_norm_unions xs) = true := by
  have had : xs.any isNullNTy = false := by
    rw [List.any_eq_false]
    intro t ht
    simp [(h t ht).1]
  have hkept : xs.filter (fun t => !isNullNTy t) = xs :=
    List.filter_eq_self.mpr (fun a ha => by simp [(h a ha).1])
  simp only [simplify_norm_unions, had, hkept, Bool.false_eq_true, if_false]
  rcases xs with _ | ⟨x, _ | ⟨y, rest⟩⟩
  · exact absurd rfl hne
  · exact h x (List.mem_cons_self _ _)
  · refine ⟨rfl, rfl, ?_⟩
    show wfNullableList (x :: y :: rest) = true
    rw [wfNullableList_mem]
    exact fun t ht => (h t ht).2.2

theorem wfNullable_normalize (p : Policy) :
    ∀ u, wfNullable (normalize_to_norm p u) = true := by
  refine strongIndU (fun u => wfNullable (normalize_to_norm p u) = true) ?_
  intro u IH
  obtain ⟨nl, hb, onum, ostr, oarr, oobj⟩ := u
  by_cases hx : (U.mk nl hb onum ostr oarr oobj).is_exact_null = true
  · simp only [normalize_to_norm, hx, if_true]
    rfl
  · have harms : ∀ t ∈ armsArr p oarr ++ armsObj p oobj
        ++ armsNum onum ++ armsStr p ostr ++ armsBool hb,
        isNullNTy t = false ∧ isNullableNTy t = false ∧ wfNullable t = true := by
      intro t ht
      simp only [List.mem_append] at ht
      rcases ht with ⟨⟨⟨ht | ht⟩ | ht⟩ | ht⟩ | ht
      · -- array arm
        cases oarr with
        | none => cases ht
        | some a =>
          obtain ⟨lm, lx, it, cols, pres, nnl, smp⟩ := a
          simp only [armsArr] at ht
          cases hd : decide_tuple (ArrC.mk lm lx it cols pres nnl smp) with
          | true =>
            simp only [hd, Bool.not_true, Bool.false_eq_true, if_false,
              List.mem_singleton] at ht
            subst ht
            refine ⟨rfl, rfl, ?_⟩
            show wfNullableList (normCols p cols) = true
            rw [wfNullableList_mem]
            have aux : ∀ cs : List U, (∀ c ∈ cs, c ∈ cols) →
                ∀ t ∈ normCols p cs, wfNullable t = true := by
              intro cs
              induction cs with
              | nil => intro _ t ht2; cases ht2
              | cons c cs2 ih =>
                intro hsub t ht2
                simp only [normCols, List.mem_cons] at ht2
                rcases ht2 with ht2 | ht2
                · subst ht2
                  exact IH _ (sizeOf_col_lt nl hb onum ostr oobj lm lx it cols
                    pres nnl smp (hsub c (List.mem_cons_self _ _)))
                · exact ih (fun x hx2 => hsub x (List.mem_cons_of_mem _ hx2)) t ht2
            exact aux cols (fun c hc => hc)
          | false =>
            simp [hd] at ht
            subst ht
            refine ⟨rfl, rfl, ?_⟩
            show wfNullable (normalize_to_norm p it) = true
            exact IH it (sizeOf_item_lt nl hb onum ostr oobj lm lx it cols pres nnl smp)
      · -- object arm
        cases oobj with
        | none => cases ht
        | some o =>
          obtain ⟨fs, seen⟩ := o
          simp only [armsObj, List.mem_singleton] at ht
          subst ht
          refine ⟨rfl, rfl, ?_⟩
          show wfNullableFields (sortNFields (normFieldsCore p seen fs)) = true
          rw [wfNullableFields_mem]
          intro f hf
          rw [mem_sortNFields] at hf
          obtain ⟨g, hg, he⟩ := normFieldsCore_mem p seen fs f hf
          rw [he]
          exact IH g.ty (sizeOf_field_ty_lt nl hb onum ostr oarr fs seen hg)
      · -- number arm
        cases onum with
        | none => cases ht
        | some nc =>
          simp only [armsNum, List.mem_singleton] at ht
          subst ht
          exact numArm_good nc
      · -- string arm
        cases ostr with
        | none => cases ht
        | some sc =>
          simp only [armsStr, List.mem_singleton] at ht
          subst ht
          exact strArm_good p sc
      · -- bool arm
        cases hb with
        | false => cases ht
        | true =>
          simp only [armsBool, if_true, List.mem_singleton] at ht
          subst ht
          exact ⟨rfl, rfl, rfl⟩
    simp only [normalize_to_norm, hx, Bool.false_eq_true, if_false]
    revert harms
    generalize armsArr p oarr ++ armsObj p oobj ++ armsNum onum
      ++ armsStr p ostr ++ armsBool hb = A
    intro harms
    have hcore : ∀ core : NTy,
        (isNullNTy core = false ∧ isNullableNTy core = false ∧
          wfNullable core = true) ∨ core = NTy.null →
        wfNullable (if nl && !isNullNTy core then .nullable core else core)
          = true := by
      intro core hc
      rcases hc with ⟨h1, h2, h3⟩ | hc
      · by_cases hcond : (nl && !isNullNTy core) = true
        · rw [if_pos hcond]
          show (!isNullNTy core && !isNullableNTy core && wfNullable core) = true
          simp [h1, h2, h3]
        · rw [if_neg hcond]
          exact h3
      · subst hc
        simp [isNullNTy]
        rfl
    rcases A with _ | ⟨x, _ | ⟨y, rest⟩⟩
    · exact hcore _ (Or.inr rfl)
    · exact hcore _ (Or.inl (harms x (List.mem_cons_self _ _)))
    · exact hcore _ (Or.inl (simplify_norm_unions_good _ (by simp) harms))

-- ============================ Claim C3 ==================================== --

/-- Claim C3: `decide_tuple` returns `true` iff the record has at least two
samples, a non-empty `cols` vector, and either exact arity
(`len_min == len_max > 0`) or an exact-null pad column
(`present[i] == samples ∧ non_null[i] == 0` for some column `i`); otherwise
the array is treated as a list. -/
theorem c3_decide_tuple_iff (a : ArrC) :
    decide_tuple a = true ↔
      2 ≤ a.samples ∧ a.cols ≠ [] ∧
        ((a.len_min = a.len_max ∧ 0 < a.len_max) ∨
          ∃ i < a.cols.length,
            a.present.getD i 0 = a.samples ∧ a.non_null.getD i 0 = 0) := by
  simp only [decide_tuple]
  by_cases h1 : a.samples < 2
  · rw [if_pos h1]
    constructor
    · intro h
      exact absurd h (by simp)
    · rintro ⟨h2, _⟩
      omega
  · rw [if_neg h1]
    by_cases h2 : a.cols.isEmpty
    · rw [if_pos h2]
      have hempty : a.cols = [] := List.isEmpty_iff.mp h2
      constructor
      · intro h
        exact absurd h (by simp)
      · rintro ⟨_, hne, _⟩
        exact absurd hempty hne
    · rw [if_neg h2]
      have hne : a.cols ≠ [] := fun he => h2 (by simp [he])
      by_cases h3 : a.len_min = a.len_max ∧ 0 < a.len_max
      · rw [if_pos h3]
        constructor
        · intro _
          exact ⟨by omega, hne, Or.inl h3⟩
        · intro _
          rfl
      · rw [if_neg h3]
        rw [List.any_eq_true]
        constructor
        · rintro ⟨i, hi, hcond⟩
          simp only [Bool.and_eq_true, beq_iff_eq] at hcond
          exact ⟨by omega, hne, Or.inr ⟨i, List.mem_range.mp hi, hcond.1, hcond.2⟩⟩
        · rintro ⟨hs, _, hc | ⟨i, hilt, hp, hn0⟩⟩
          · exact absurd hc h3
          · exact ⟨i, List.mem_range.mpr hilt,
              by simp only [Bool.and_eq_true, beq_iff_eq]; exact ⟨hp, hn0⟩⟩

-- ============================ Claim C8 ==================================== --

/-- Claim C8, counterexample: observing the single array `[null]` (observed
length 1, so `max(len) = 1`) produces vectors of exactly 1 entry, not
`max(len) + 1 = 2` as claimed. -/
theorem c8_counterexample :
    (observe_arrC [Json.null]).cols.length = (observe_arrC [Json.null]).len_max ∧
      (observe_arrC [Json.null]).cols.length
        ≠ (observe_arrC [Json.null]).len_max + 1 := by
  constructor
  · rfl
  · decide

/-- Claim C8 (amended): the vectors `cols`, `present` and `non_null` are
extended to exactly the maximum observed length (not that length plus one):
after observing an array of length `L` each vector has `L` entries, the
`Value::Array` branch of `observe_value` carries exactly that record, and
after joining two records each vector has `max(|a.cols|, |b.cols|)` entries. -/
theorem c8_vector_lengths :
    (∀ xs : List Json,
      (observe_arrC xs).cols.length = xs.length ∧
        (observe_arrC xs).present.length = xs.length ∧
        (observe_arrC xs).non_null.length = xs.length ∧
        (observe_value (Json.arr xs)).arr = some (observe_arrC xs)) ∧
    (∀ a b : ArrC,
      (join_arr a b).cols.length = max a.cols.length b.cols.length ∧
        (join_arr a b).present.length = max a.cols.length b.cols.length ∧
        (join_arr a b).non_null.length = max a.cols.length b.cols.length) := by
  constructor
  · intro xs
    refine ⟨?_, ?_, ?_, rfl⟩
    · simp only [observe_arrC, ArrC.cols, observe_cols_length]
    · simp only [observe_arrC, ArrC.present, List.length_replicate]
    · simp only [observe_arrC, ArrC.non_null, nonNullBits_length]
  · intro a b
    obtain ⟨lm1, lx1, it1, cols1, p1, n1, s1⟩ := a
    obtain ⟨lm2, lx2, it2, cols2, p2, n2, s2⟩ := b
    simp [join_arr, ArrC.cols, ArrC.present, ArrC.non_null,
      joinCols_length, countsAt_length]

-- ============================ Claim C4 ==================================== --

/-- The two-document corpus `[[1, null, "x"], [2, null]]`: a pad column proves
the tuple, and the arity is not exact (`len_min = 2 ≠ 3 = len_max`). -/
def c4_docs : List Json :=
  [.arr [.num (.posInt 1), .null, .str "x"], .arr [.num (.posInt 2), .null]]

/-- Claim C4 (code bug in `src/norm_ir.rs`): on the corpus
`[[1, null, "x"], [2, null]]` the array record is decided a tuple with
non-exact arity, and `tuple_min_items_arr` on the real record gives
`last_req + 1 = 2` (columns 0 and 1 have `present[i] == samples`), exactly as
the claim states and as `lower.rs` computes — but the `NTy` builder hands
`tuple_min_items_arr` a temporary record whose `cols` is the empty vector, so
the loop bound `cols.len()` is `0` and the emitted `ArrayTuple` carries
`min_items = 0` instead of `2`. -/
theorem c4_norm_ir_min_items_bug :
    (infer_state c4_docs).arr.map decide_tuple = some true ∧
      (infer_state c4_docs).arr.map ArrC.len_min = some 2 ∧
      (infer_state c4_docs).arr.map ArrC.len_max = some 3 ∧
      (infer_state c4_docs).arr.map tuple_min_items_arr = some 2 ∧
      normalize_to_norm pFlagsOff (infer_state c4_docs)
        = NTy.arrayTuple
            [NTy.integer (some 1) (some 2), NTy.null,
              NTy.nullable (NTy.string [] none false)] 0 3 :=
  ⟨rfl, rfl, rfl, rfl, rfl⟩

-- ============================ Claim C7 ==================================== --

/-- A three-string corpus whose distinct trimmed literal count reaches
`GREX_MIN_SAMPLES`, so regex synthesis runs during normalization. -/
def c7_docs : List Json := [.str "aaa", .str "bbb", .str "ccc"]

/-- A concrete policy valuation with `ENABLE_GREX` on and a learner returning
a fixed anchored pattern. -/
def pGrexOn : Policy := ⟨false, true, fun _ => "^rx$", fun _ => 0⟩

/-- Claim C7 (code bug): no code path stores the grex cache key or the
synthesized pattern.  `join_str` unconditionally emits `None` for both fields,
`observe_value` leaves them at `Default` (`None`), and
`normalize_to_norm_consume` consumes the record without writing back — so on
the three-literal corpus the record reaching normalization has no stored key,
the cache-hit branch cannot fire, and synthesis runs (the emitted pattern is
the learner's output, not a cached one). -/
theorem c7_grex_cache_never_stored :
    (∀ a b : StrC,
      (join_str a b).grex_cache_key = none ∧ (join_str a b).pattern_synth = none) ∧
      (infer_state c7_docs).str_.map StrC.grex_cache_key = some none ∧
      (infer_state c7_docs).str_.map StrC.pattern_synth = some none ∧
      normalize_to_norm pGrexOn (infer_state c7_docs)
        = NTy.string [] (some "^rx$") false :=
  ⟨fun a b => ⟨rfl, rfl⟩, rfl, rfl, rfl⟩

-- ===================== Required-field machinery (C5) ====================== --

/-- Key lookup in an object literal's pair list (`serde_json::Map::get`). -/
def pairsLookup (k : String) : List (String × Json) → Option Json
  | [] => none
  | (k2, v) :: r => if k2 = k then some v else pairsLookup k r

/-- The document-level predicate of the spec's required rule: the value is an
object, the key is present, and its value is not `Null`. -/
def docFieldNonNull (k : String) : Json → Bool
  | .obj ps =>
    match pairsLookup k ps with
    | some .null => false
    | some _ => true
    | none => false
  | _ => false

/-- Discriminator for `Value::Object`. -/
def isObjJson : Json → Bool
  | .obj _ => true
  | _ => false

/-- Whether the normalized node is an object that marks key `k` required. -/
def requiredIn (t : NTy) (k : String) : Bool :=
  match t with
  | .object fs => fs.any (fun f => f.name == k && f.required)
  | _ => false

/-- The `non_null_in` count a field map holds for key `k` (0 when absent). -/
def fieldNin (k : String) (fs : List FieldC) : Nat :=
  match lookupField k fs with
  | some f => f.non_null_in
  | none => 0

theorem lookupField_name {k : String} {l : List FieldC} {f : FieldC}
    (h : lookupField k l = some f) : f.name = k := by
  induction l with
  | nil => simp [lookupField] at h
  | cons g gs ih =>
    by_cases he : g.name = k
    · simp only [lookupField, he, if_pos rfl] at h
      cases h
      exact he
    · simp only [lookupField, he, if_false] at h
      exact ih h

theorem lookupField_none (k : String) (l : List FieldC) :
    lookupField k l = none ↔ containsField k l = false := by
  induction l with
  | nil => simp [lookupField, containsField]
  | cons g gs ih =>
    by_cases he : g.name = k
    · simp [lookupField, containsField, he]
    · simp [lookupField, containsField, he, ih]

theorem lookupField_insSortedField (k : String) (f : FieldC) :
    ∀ l, sortedSet strLt (fieldNames l) = true →
      lookupField k (insSortedField f l)
        = if f.name = k then some f else lookupField k l := by
  intro l
  induction l with
  | nil => intro _; simp [insSortedField, lookupField]
  | cons g gs ih =>
    intro hs
    rw [fieldNames_cons] at hs
    have hs2 := sortedSet_tail hs
    simp only [insSortedField]
    by_cases h1 : strLt f.name g.name = true
    · rw [if_pos h1]
      rfl
    · rw [if_neg h1]
      have h1f : strLt f.name g.name = false := by
        cases hv : strLt f.name g.name
        · rfl
        · exact absurd hv h1
      by_cases h2 : strLt g.name f.name = true
      · rw [if_pos h2]
        simp only [lookupField, ih hs2]
        by_cases hf : f.name = k
        · by_cases hg : g.name = k
          · exfalso
            rw [hf, hg] at h2
            rw [strLt_irrefl] at h2
            exact Bool.false_ne_true h2
          · simp [hf, hg]
        · simp [hf]
      · rw [if_neg h2]
        have h2f : strLt g.name f.name = false := by
          cases hv : strLt g.name f.name
          · rfl
          · exact absurd hv h2
        have he : g.name = f.name := strLt_conn h2f h1f
        simp only [lookupField]
        by_cases hf : f.name = k
        · simp [hf]
        · have hg : ¬(g.name = k) := by rw [he]; exact hf
          simp [hf, hg]

theorem lookupField_addMissing (k : String) :
    ∀ (b out : List FieldC), sortedSet strLt (fieldNames out) = true →
      lookupField k (addMissing b out)
        = match lookupField k out with
          | some f => some f
          | none => lookupField k b := by
  intro b
  induction b with
  | nil =>
    intro out _
    simp only [addMissing]
    cases lookupField k out <;> rfl
  | cons fb rest ih =>
    intro out hs
    simp only [addMissing]
    by_cases hc : containsField fb.name out = true
    · rw [if_pos hc, ih out hs]
      cases ho : lookupField k out with
      | some f => rfl
      | none =>
        by_cases he : fb.name = k
        · exfalso
          rw [lookupField_none] at ho
          rw [he, ho] at hc
          exact Bool.false_ne_true hc
        · simp [lookupField, he]
    · rw [if_neg hc]
      have hc2 : containsField fb.name out = false := by
        cases hv : containsField fb.name out
        · rfl
        · exact absurd hv hc
      rw [ih _ (sorted_insSortedField lawful_strLt hs),
        lookupField_insSortedField k fb out hs]
      by_cases he : fb.name = k
      · rw [if_pos he]
        have ho : lookupField k out = none := by
          rw [lookupField_none]
          rw [← he]
          exact hc2
        rw [ho]
        simp [lookupField, he]
      · rw [if_neg he]
        cases lookupField k out with
        | some f => rfl
        | none => simp [lookupField, he]

theorem lookupField_joinFieldsA (k : String) :
    ∀ (a b : List FieldC),
      lookupField k (joinFieldsA a b)
        = (lookupField k a).map (fun fa =>
            match lookupField fa.name b with
            | none => fa
            | some fb => joinField fa fb) := by
  intro a
  induction a with
  | nil => intro b; rfl
  | cons fa rest ih =>
    intro b
    simp only [joinFieldsA]
    have hname : (match lookupField fa.name b with
        | none => fa
        | some fb => joinField fa fb).name = fa.name := by
      cases lookupField fa.name b with
      | none => rfl
      | some fb => exact joinField_name fa fb
    simp only [lookupField, hname]
    by_cases he : fa.name = k
    · rw [if_pos he, if_pos he, Option.map_some']
    · rw [if_neg he, if_neg he, ih b]

theorem lookupField_joinFields (k : String) (a b : List FieldC)
    (hsa : sortedSet strLt (fieldNames a) = true) :
    lookupField k (joinFields a b)
      = match lookupField k a, lookupField k b with
        | some fa, some fb => some (joinField fa fb)
        | some fa, none => some fa
        | none, o => o := by
  have hsja : sortedSet strLt (fieldNames (joinFieldsA a b)) = true := by
    rw [fieldNames_joinFieldsA]
    exact hsa
  rw [joinFields, lookupField_addMissing k b _ hsja, lookupField_joinFieldsA k a b]
  cases ha : lookupField k a with
  | none => simp
  | some fa =>
    have hn : fa.name = k := lookupField_name ha
    subst hn
    simp only [Option.map_some']
    cases hb : lookupField fa.name b with
    | none => rfl
    | some fb => rfl

theorem fieldNin_joinFields (k : String) (a b : List FieldC)
    (hsa : sortedSet strLt (fieldNames a) = true) :
    fieldNin k (joinFields a b) = fieldNin k a + fieldNin k b := by
  simp only [fieldNin, lookupField_joinFields k a b hsa]
  cases ha : lookupField k a with
  | none => cases hb : lookupField k b <;> simp
  | some fa =>
    cases hb : lookupField k b with
    | none => simp
    | some fb =>
      obtain ⟨k1, t1, p1, n1⟩ := fa
      obtain ⟨k2, t2, p2, n2⟩ := fb
      simp [joinField, FieldC.non_null_in]

theorem fieldNin_observe_fields (k : String) :
    ∀ ps : List (String × Json),
      fieldNin k (observe_fields ps)
        = if docFieldNonNull k (.obj ps) = true then 1 else 0 := by
  intro ps
  induction ps with
  | nil => simp [observe_fields, fieldNin, lookupField, docFieldNonNull, pairsLookup]
  | cons pr r ih =>
    obtain ⟨k2, v⟩ := pr
    by_cases he : k2 = k
    · subst he
      cases v <;>
        simp [observe_fields, fieldNin, lookupField, FieldC.name, FieldC.non_null_in,
          docFieldNonNull, pairsLookup]
    · simp only [docFieldNonNull, pairsLookup, he, if_false]
      cases v <;>
        simpa [observe_fields, fieldNin, lookupField, FieldC.name, he,
          docFieldNonNull] using ih

theorem requiredIn_normFieldsCore (p : Policy) (n : Nat) (k : String) :
    ∀ fs : List FieldC,
      (normFieldsCore p n fs).any (fun f => f.name == k && f.required)
        = fs.any (fun g => g.name == k && (g.non_null_in == n)) := by
  intro fs
  induction fs with
  | nil => rfl
  | cons g r ih =>
    obtain ⟨k2, ty, pin, nin⟩ := g
    simp only [normFieldsCore, List.any_cons]
    rw [ih]
    rfl

theorem obj_fold (k : String) : ∀ (vs : List Json),
    (∀ v ∈ vs, isObjJson v = true ∧ wfJson v = true) →
    ∀ (fs0 : List FieldC) (n0 : Nat),
    InvU (U.mk false false none none none (some (.mk fs0 n0))) = true →
    ∃ fs : List FieldC,
      vs.foldl (fun st v => join st (observe_value v))
          (U.mk false false none none none (some (.mk fs0 n0)))
        = U.mk false false none none none (some (.mk fs (n0 + vs.length)))
      ∧ InvU (U.mk false false none none none (some (.mk fs (n0 + vs.length))))
          = true
      ∧ fieldNin k fs = fieldNin k fs0 + vs.countP (docFieldNonNull k) := by
  intro vs
  induction vs with
  | nil =>
    intro _ fs0 n0 hI
    exact ⟨fs0, by simp, by simpa using hI, by simp⟩
  | cons v rest ih =>
    intro hh fs0 n0 hI
    obtain ⟨hov, hwv⟩ := hh v (List.mem_cons_self _ _)
    have hrest : ∀ w ∈ rest, isObjJson w = true ∧ wfJson w = true :=
      fun w hw => hh w (List.mem_cons_of_mem _ hw)
    cases v with
    | null => exact absurd hov (by simp [isObjJson])
    | bool b => exact absurd hov (by simp [isObjJson])
    | num m => exact absurd hov (by simp [isObjJson])
    | str s => exact absurd hov (by simp [isObjJson])
    | arr xs => exact absurd hov (by simp [isObjJson])
    | obj ps =>
      have h1 : join (U.mk false false none none none (some (.mk fs0 n0)))
          (observe_value (.obj ps))
          = U.mk false false none none none
              (some (.mk (joinFields fs0 (observe_fields ps)) (n0 + 1))) := rfl
      have hs0 : sortedSet strLt (fieldNames fs0) = true := by
        simp only [InvU, InvNumOpt, InvStrOpt, InvArrOpt, InvObjOpt, InvObj,
          Bool.and_eq_true] at hI
        exact hI.2.1
      have hI1 : InvU (U.mk false false none none none
          (some (.mk (joinFields fs0 (observe_fields ps)) (n0 + 1)))) = true := by
        rw [← h1]
        exact InvU_join _ _ hI (InvU_observe _ hwv)
      obtain ⟨fs, hfold, hIfs, hnin⟩ :=
        ih hrest (joinFields fs0 (observe_fields ps)) (n0 + 1) hI1
      have hlen : n0 + 1 + rest.length = n0 + (Json.obj ps :: rest).length := by
        rw [List.length_cons]
        omega
      refine ⟨fs, ?_, ?_, ?_⟩
      · rw [List.foldl_cons, h1, hfold, hlen]
      · rw [← hlen]
        exact hIfs
      · rw [hnin, fieldNin_joinFields k fs0 (observe_fields ps) hs0,
          fieldNin_observe_fields k ps, List.countP_cons]
        omega

theorem norm_pure_obj (p : Policy) (fs : List FieldC) (n : Nat) :
    normalize_to_norm p (U.mk false false none none none (some (.mk fs n)))
      = NTy.object (sortNFields (normFieldsCore p n fs)) := rfl

theorem any_nin_iff (fs : List FieldC) (hs : sortedSet strLt (fieldNames fs) = true)
    (k : String) (n : Nat) (hn : 0 < n) :
    fs.any (fun g => g.name == k && (g.non_null_in == n)) = true
      ↔ fieldNin k fs = n := by
  constructor
  · rw [List.any_eq_true]
    rintro ⟨g, hg, hp⟩
    simp only [Bool.and_eq_true, beq_iff_eq] at hp
    obtain ⟨hgk, hgn⟩ := hp
    have hl : lookupField g.name fs = some g := lookupField_self hs hg
    rw [hgk] at hl
    simp [fieldNin, hl, hgn]
  · intro hf
    rw [List.any_eq_true]
    cases hl : lookupField k fs with
    | none =>
      simp only [fieldNin, hl] at hf
      omega
    | some g =>
      simp only [fieldNin, hl] at hf
      exact ⟨g, lookupField_mem hl, by simp [lookupField_name hl, hf]⟩

theorem countP_eq_length_iff (p : α → Bool) :
    ∀ l : List α, l.countP p = l.length ↔ ∀ a ∈ l, p a = true := by
  intro l
  induction l with
  | nil => simp
  | cons a t ih =>
    rw [List.countP_cons, List.length_cons]
    have hle : t.countP p ≤ t.length := List.countP_le_length p
    cases hpv : p a
    · have hif : (if (false : Bool) = true then 1 else 0) = 0 := rfl
      rw [hif]
      constructor
      · intro h
        exfalso
        omega
      · intro h
        exfalso
        have := h a (List.mem_cons_self _ _)
        rw [hpv] at this
        exact Bool.false_ne_true this
    · have hif : (if (true : Bool) = true then 1 else 0) = 1 := rfl
      rw [hif]
      constructor
      · intro h b hb
        rcases List.mem_cons.mp hb with hb | hb
        · rw [hb]
          exact hpv
        · exact (ih.mp (by omega)) b hb
      · intro h
        have := ih.mpr (fun b hb => h b (List.mem_cons_of_mem _ hb))
        omega

-- ============================ Claim C10 =================================== --

/-- Claim C10: for every policy valuation and every lattice point, the
normalized IR returned by the builder satisfies the nullable-shape invariant
`wfNullable`: it contains no `Nullable(Null)` and no `Nullable` whose
immediate child is itself `Nullable` — the wrapper is applied at most once per
node and only around a non-null inhabitant. -/
theorem c10_nullable_shape (p : Policy) (u : U) :
    wfNullable (normalize_to_norm p u) = true :=
  wfNullable_normalize p u

-- ============================ Claim C5 ==================================== --

/-- A two-document object corpus: `x` is non-null in every document, `y` is
present in every document but null in the second. -/
def c5_docs : List Json :=
  [.obj [("x", .num (.posInt 1)), ("y", .str "a")],
   .obj [("x", .num (.posInt 2)), ("y", .null)]]

/-- Claim C5: over every non-empty corpus of well-formed object documents, a
field is marked required in the normalized output exactly when it is present
and non-null in every observed document (`non_null_in == seen_objects`);
presence alone, with a null value somewhere, does not suffice. -/
theorem c5_required_iff (p : Policy) (vs : List Json) (hne : vs ≠ [])
    (hdocs : ∀ v ∈ vs, isObjJson v = true ∧ wfJson v = true) (k : String) :
    requiredIn (normalize_to_norm p (infer_state vs)) k = true
      ↔ ∀ v ∈ vs, docFieldNonNull k v = true := by
  cases vs with
  | nil => exact absurd rfl hne
  | cons v rest =>
    obtain ⟨hov, hwv⟩ := hdocs v (List.mem_cons_self _ _)
    have hrest : ∀ w ∈ rest, isObjJson w = true ∧ wfJson w = true :=
      fun w hw => hdocs w (List.mem_cons_of_mem _ hw)
    cases v with
    | null => exact absurd hov (by simp [isObjJson])
    | bool b => exact absurd hov (by simp [isObjJson])
    | num m => exact absurd hov (by simp [isObjJson])
    | str s => exact absurd hov (by simp [isObjJson])
    | arr xs => exact absurd hov (by simp [isObjJson])
    | obj ps =>
      have h0 : infer_state (Json.obj ps :: rest)
          = rest.foldl (fun st v => join st (observe_value v))
              (U.mk false false none none none (some (.mk (observe_fields ps) 1))) := by
        simp only [infer_state, List.foldl_cons]
        rw [join_empty_left]
        rfl
      have hI0 : InvU (U.mk false false none none none
          (some (.mk (observe_fields ps) 1))) = true := InvU_observe _ hwv
      obtain ⟨fs, hfold, hIfs, hnin⟩ :=
        obj_fold k rest hrest (observe_fields ps) 1 hI0
      have hsfs : sortedSet strLt (fieldNames fs) = true := by
        simp only [InvU, InvNumOpt, InvStrOpt, InvArrOpt, InvObjOpt, InvObj,
          Bool.and_eq_true] at hIfs
        exact hIfs.2.1
      rw [h0, hfold, norm_pure_obj]
      have h1 : (sortNFields (normFieldsCore p (1 + rest.length) fs)).any
            (fun f => f.name == k && f.required) = true
          ↔ (normFieldsCore p (1 + rest.length) fs).any
            (fun f => f.name == k && f.required) = true := by
        rw [List.any_eq_true, List.any_eq_true]
        constructor
        · rintro ⟨f, hf, hp⟩
          exact ⟨f, (mem_sortNFields f _).mp hf, hp⟩
        · rintro ⟨f, hf, hp⟩
          exact ⟨f, (mem_sortNFields f _).mpr hf, hp⟩
      have hreq : requiredIn (NTy.object (sortNFields
            (normFieldsCore p (1 + rest.length) fs))) k = true
          ↔ fs.any (fun g => g.name == k
              && (g.non_null_in == (1 + rest.length))) = true := by
        simp only [requiredIn]
        rw [h1, requiredIn_normFieldsCore]
      rw [hreq, any_nin_iff fs hsfs k (1 + rest.length) (by omega), hnin,
        fieldNin_observe_fields k ps,
        ← countP_eq_length_iff (docFieldNonNull k) (Json.obj ps :: rest),
        List.countP_cons, List.length_cons]
      constructor <;> intro h <;> omega

/-- Concrete run of the required rule: in `c5_docs` the field `x` is non-null
in both documents, so the normalized object marks it required. -/
theorem c5_witness :
    requiredIn (normalize_to_norm pFlagsOff (infer_state c5_docs)) "x" = true :=
  (c5_required_iff pFlagsOff c5_docs (by simp [c5_docs]) (by decide) "x").mpr
    (by decide)

-- ============================ Claim C6 ==================================== --

theorem join_str_component (a b : U) :
    (join a b).str_ = joinOpt join_str a.str_ b.str_ := by
  obtain ⟨nl1, hb1, n1, s1, a1, o1⟩ := a
  obtain ⟨nl2, hb2, n2, s2, a2, o2⟩ := b
  rfl

theorem join_str_is_uri (a b : StrC) :
    (join_str a b).is_uri = (a.is_uri && b.is_uri) := rfl

theorem str_uri_mono : ∀ (rest : List Json) (u1 : U) (sc : StrC),
    (rest.foldl (fun st v => join st (observe_value v)) u1).str_ = some sc →
    sc.is_uri = true →
    ∀ sc1 : StrC, u1.str_ = some sc1 → sc1.is_uri = true := by
  intro rest
  induction rest with
  | nil =>
    intro u1 sc hsc hu sc1 h1
    rw [List.foldl_nil, h1] at hsc
    cases hsc
    exact hu
  | cons w rest2 ih =>
    intro u1 sc hsc hu sc1 h1
    rw [List.foldl_cons] at hsc
    have h2 : (join u1 (observe_value w)).str_
        = joinOpt join_str u1.str_ (observe_value w).str_ := join_str_component _ _
    rw [h1] at h2
    cases hw : (observe_value w).str_ with
    | none =>
      rw [hw] at h2
      exact ih _ sc hsc hu sc1 h2
    | some b =>
      rw [hw] at h2
      have := ih _ sc hsc hu (join_str sc1 b) h2
      rw [join_str_is_uri] at this
      exact (Bool.and_eq_true _ _ |>.mp this).1

theorem str_fold_uri : ∀ (vs : List Json) (u0 : U) (sc : StrC),
    (vs.foldl (fun st v => join st (observe_value v)) u0).str_ = some sc →
    sc.is_uri = true →
    ∀ s : String, Json.str s ∈ vs → looks_like_uri s = true := by
  intro vs
  induction vs with
  | nil =>
    intro u0 sc _ _ s hs
    cases hs
  | cons v rest ih =>
    intro u0 sc hsc hu s hs
    rw [List.foldl_cons] at hsc
    rcases List.mem_cons.mp hs with hv | hs2
    · subst hv
      have h2 : (join u0 (observe_value (Json.str s))).str_
          = joinOpt join_str u0.str_ (some (StrC.mk [s] (looks_like_uri s) none none)) :=
        join_str_component _ _
      cases hu0 : u0.str_ with
      | none =>
        rw [hu0] at h2
        have := str_uri_mono rest _ sc hsc hu _ h2
        exact this
      | some a =>
        rw [hu0] at h2
        have := str_uri_mono rest _ sc hsc hu _ h2
        rw [join_str_is_uri] at this
        exact (Bool.and_eq_true _ _ |>.mp this).2
    · exact ih _ sc hsc hu s hs2

/-- A two-document URI corpus for the C6 witness. -/
def c6_docs : List Json := [.str "https://a", .str "mailto:b"]

/-- Claim C6: `is_uri` is set per observed string by the URI-prefix predicate,
every join combines it conjunctively, a corpus whose string record ends with
`is_uri = true` consists solely of prefix-matching strings, and the normalized
string node's `format_uri` flag is exactly the record's `is_uri`. -/
theorem c6_format_uri_conjunctive :
    (∀ s : String, (observe_value (Json.str s)).str_
        = some (StrC.mk [s] (looks_like_uri s) none none))
    ∧ (∀ a b : StrC, (join_str a b).is_uri = (a.is_uri && b.is_uri))
    ∧ (∀ (vs : List Json) (sc : StrC), (infer_state vs).str_ = some sc →
        sc.is_uri = true → ∀ s : String, Json.str s ∈ vs → looks_like_uri s = true)
    ∧ (∀ (p : Policy) (sc : StrC), ∃ e rx, strArm p sc = NTy.string e rx sc.is_uri) := by
  refine ⟨fun s => rfl, fun a b => rfl, ?_, ?_⟩
  · intro vs sc hsc hu s hs
    exact str_fold_uri vs U.empty sc hsc hu s hs
  · intro p sc
    simp only [strArm]
    split
    · exact ⟨_, _, rfl⟩
    · split
      · exact ⟨_, _, rfl⟩
      · exact ⟨_, _, rfl⟩

/-- Concrete run: the corpus `["https://a", "mailto:b"]` yields a string record
with `is_uri = true`, so the theorem forces every member string to match the
URI prefix predicate. -/
theorem c6_witness : looks_like_uri "https://a" = true :=
  c6_format_uri_conjunctive.2.2.1 c6_docs
    (StrC.mk ["https://a", "mailto:b"] true none none) rfl rfl
    "https://a" (List.mem_cons_self _ _)

-- ===================== Associativity machinery (C2) ======================= --

theorem strongIndU3 (motive : U → U → U → Prop)
    (step : ∀ a b c,
      (∀ a2 b2 c2, sizeOf a2 + sizeOf b2 + sizeOf c2
          < sizeOf a + sizeOf b + sizeOf c → motive a2 b2 c2) →
      motive a b c) :
    ∀ a b c, motive a b c := by
  have H : ∀ n (a b c : U), sizeOf a + sizeOf b + sizeOf c ≤ n → motive a b c := by
    intro n
    induction n with
    | zero =>
      intro a b c h
      exact step a b c (fun x y z hxyz =>
        absurd (Nat.lt_of_lt_of_le hxyz h) (Nat.not_lt_zero _))
    | succ n ih =>
      intro a b c h
      exact step a b c (fun x y z hxyz =>
        ih x y z (Nat.le_of_lt_succ (Nat.lt_of_lt_of_le hxyz h)))
  exact fun a b c => H (sizeOf a + sizeOf b + sizeOf c) a b c (Nat.le_refl _)

theorem joinCols_nil_left (zs : List U) : joinCols [] zs = zs.map padNull := by
  cases zs <;> rfl

theorem joinCols_nil_right (zs : List U) : joinCols zs [] = zs.map padNull := by
  cases zs <;> rfl

theorem joinCols_map_padNull_left :
    ∀ (xs ys : List U), joinCols (xs.map padNull) ys = (joinCols xs ys).map padNull := by
  intro xs
  induction xs with
  | nil =>
    intro ys
    simp only [List.map_nil]
    cases ys with
    | nil => rfl
    | cons y ys2 =>
      show (y :: ys2).map padNull = ((y :: ys2).map padNull).map padNull
      simp [padNull_idem, Function.comp]
  | cons x xs2 ih =>
    intro ys
    cases ys with
    | nil =>
      show ((padNull x :: xs2.map padNull)).map padNull
          = ((x :: xs2).map padNull).map padNull
      simp [padNull_idem, Function.comp]
    | cons y ys2 =>
      show join (padNull x) y :: joinCols (xs2.map padNull) ys2
          = (join x y :: joinCols xs2 ys2).map padNull
      rw [join_padNull_left, ih ys2]
      rfl

theorem joinCols_map_padNull_right :
    ∀ (xs ys : List U), joinCols xs (ys.map padNull) = (joinCols xs ys).map padNull := by
  intro xs
  induction xs with
  | nil =>
    intro ys
    rw [joinCols_nil_left, joinCols_nil_left]
  | cons x xs2 ih =>
    intro ys
    cases ys with
    | nil =>
      show (x :: xs2).map padNull = ((x :: xs2).map padNull).map padNull
      simp [padNull_idem, Function.comp]
    | cons y ys2 =>
      show join x (padNull y) :: joinCols xs2 (ys2.map padNull)
          = (join x y :: joinCols xs2 ys2).map padNull
      rw [join_padNull_right, ih ys2]
      rfl

theorem getD_zero_of_le {l : List Nat} {i : Nat} (h : l.length ≤ i) :
    l.getD i 0 = 0 := by
  rw [List.getD_eq_getElem?_getD, List.getElem?_eq_none h]
  rfl

theorem countsAt_assoc (α β γ : Nat) (pa pb pc : List Nat)
    (ha : pa.length = α) (hb : pb.length = β) (hc : pc.length = γ) :
    countsAt (max (max α β) γ) (countsAt (max α β) pa pb) pc
      = countsAt (max α (max β γ)) pa (countsAt (max β γ) pb pc) := by
  rw [← Nat.max_assoc]
  simp only [countsAt]
  refine List.map_congr_left ?_
  intro i hi
  rw [List.mem_range] at hi
  have h1 : (List.map (fun j => pa.getD j 0 + pb.getD j 0)
        (List.range (max α β))).getD i 0
      = if i < max α β then pa.getD i 0 + pb.getD i 0 else 0 := by
    have := countsAt_getD (max α β) pa pb i
    simpa [countsAt] using this
  have h2 : (List.map (fun j => pb.getD j 0 + pc.getD j 0)
        (List.range (max β γ))).getD i 0
      = if i < max β γ then pb.getD i 0 + pc.getD i 0 else 0 := by
    have := countsAt_getD (max β γ) pb pc i
    simpa [countsAt] using this
  rw [h1, h2]
  by_cases hab : i < max α β
  · rw [if_pos hab]
    by_cases hbc : i < max β γ
    · rw [if_pos hbc]
      omega
    · rw [if_neg hbc]
      have hpb : pb.getD i 0 = 0 := getD_zero_of_le (by omega)
      have hpc : pc.getD i 0 = 0 := getD_zero_of_le (by omega)
      omega
  · rw [if_neg hab]
    have hpa : pa.getD i 0 = 0 := getD_zero_of_le (by omega)
    have hpb : pb.getD i 0 = 0 := getD_zero_of_le (by omega)
    by_cases hbc : i < max β γ
    · rw [if_pos hbc]
      omega
    · rw [if_neg hbc]
      have hpc : pc.getD i 0 = 0 := getD_zero_of_le (by omega)
      omega

theorem isEmpty_of_length {xs ys : List α} (h : xs.length = ys.length) :
    xs.isEmpty = ys.isEmpty := by
  cases xs with
  | nil =>
    cases ys with
    | nil => rfl
    | cons y ys2 => simp at h
  | cons x xs2 =>
    cases ys with
    | nil => simp at h
    | cons y ys2 => rfl

theorem numArm_congr {a b : NumC} (hmin : a.min_f64 = b.min_f64)
    (hmax : a.max_f64 = b.max_f64) (hsi : a.saw_int = b.saw_int)
    (hsu : a.saw_uint = b.saw_uint) (hsf : a.saw_float = b.saw_float) :
    numArm a = numArm b := by
  obtain ⟨l1, mn1, mx1, si1, su1, sf1⟩ := a
  obtain ⟨l2, mn2, mx2, si2, su2, sf2⟩ := b
  simp only [NumC.min_f64, NumC.max_f64, NumC.saw_int, NumC.saw_uint,
    NumC.saw_float] at hmin hmax hsi hsu hsf
  subst hmin hmax hsi hsu hsf
  rfl

theorem numArm_join_assoc (a b c : NumC) :
    numArm (join_num (join_num a b) c) = numArm (join_num a (join_num b c)) := by
  refine numArm_congr ?_ ?_ ?_ ?_ ?_ <;>
    · obtain ⟨l1, mn1, mx1, si1, su1, sf1⟩ := a
      obtain ⟨l2, mn2, mx2, si2, su2, sf2⟩ := b
      obtain ⟨l3, mn3, mx3, si3, su3, sf3⟩ := c
      simp [join_num, NumC.min_f64, NumC.max_f64, NumC.saw_int, NumC.saw_uint,
        NumC.saw_float, min_assoc, max_assoc, Bool.or_assoc]

theorem strArm_ff {p : Policy} (hse : p.enable_string_enums = false)
    (hgx : p.enable_grex = false) (sc : StrC) :
    strArm p sc = NTy.string [] none sc.is_uri := by
  simp only [strArm, hse, hgx, Bool.false_and, Bool.and_false]
  by_cases hu : sc.is_uri = true
  · simp [hu]
  · have hu2 : sc.is_uri = false := by
      cases hv : sc.is_uri
      · rfl
      · exact absurd hv hu
    simp [hu2]

theorem sorted_addMissing :
    ∀ (b out : List FieldC), sortedSet strLt (fieldNames out) = true →
      sortedSet strLt (fieldNames (addMissing b out)) = true := by
  intro b
  induction b with
  | nil => intro out hs; exact hs
  | cons fb rest ih =>
    intro out hs
    simp only [addMissing]
    by_cases hc : containsField fb.name out = true
    · rw [if_pos hc]
      exact ih out hs
    · rw [if_neg hc]
      exact ih _ (sorted_insSortedField lawful_strLt hs)

theorem sorted_joinFields {a : List FieldC} (b : List FieldC)
    (hsa : sortedSet strLt (fieldNames a) = true) :
    sortedSet strLt (fieldNames (joinFields a b)) = true := by
  refine sorted_addMissing b _ ?_
  rw [fieldNames_joinFieldsA]
  exact hsa

theorem head_not_in_tail {lt : α → α → Bool} (L : LawfulLt lt) {x : α}
    {l : List α} (hs : sortedSet lt (x :: l) = true) : x ∉ l := by
  intro hx
  have := sortedSet_head_lt L hs hx
  rw [L.irrefl] at this
  exact Bool.false_ne_true this

/-- Per-key agreement of two field maps up to normalization: same counts, and
types with the same normalized image. -/
def OptFieldRel (p : Policy) : Option FieldC → Option FieldC → Prop
  | none, none => True
  | some f, some g =>
    f.non_null_in = g.non_null_in
      ∧ normalize_to_norm p f.ty = normalize_to_norm p g.ty
  | _, _ => False

theorem lookupField_head (f : FieldC) (fs : List FieldC) :
    lookupField f.name (f :: fs) = some f := by
  simp [lookupField]

theorem normFieldsCore_eq (p : Policy) (n : Nat) :
    ∀ (FL FR : List FieldC), fieldNames FL = fieldNames FR →
      sortedSet strLt (fieldNames FL) = true →
      sortedSet strLt (fieldNames FR) = true →
      (∀ k, OptFieldRel p (lookupField k FL) (lookupField k FR)) →
      normFieldsCore p n FL = normFieldsCore p n FR := by
  intro FL
  induction FL with
  | nil =>
    intro FR hn _ _ _
    cases FR with
    | nil => rfl
    | cons g gs => exact absurd hn (by simp [fieldNames])
  | cons f fs ih =>
    intro FR hn hsL hsR hrel
    cases FR with
    | nil => exact absurd hn (by simp [fieldNames])
    | cons g gs =>
      rw [fieldNames_cons, fieldNames_cons] at hn
      have hng : f.name = g.name := (List.cons.injEq _ _ _ _ ▸ hn).1
      have hnt : fieldNames fs = fieldNames gs := (List.cons.injEq _ _ _ _ ▸ hn).2
      have hhead := hrel f.name
      rw [lookupField_head] at hhead
      rw [hng, lookupField_head] at hhead
      obtain ⟨hnin, hty⟩ := hhead
      obtain ⟨k1, t1, p1, n1⟩ := f
      obtain ⟨k2, t2, p2, n2⟩ := g
      simp only [FieldC.name] at hng
      simp only [FieldC.non_null_in, FieldC.ty] at hnin hty
      simp only [normFieldsCore]
      rw [hng, hnin, hty]
      rw [ih gs hnt (sortedSet_tail (by rw [fieldNames_cons] at hsL; exact hsL))
        (sortedSet_tail (by rw [fieldNames_cons] at hsR; exact hsR)) ?_]
      intro k
      by_cases hk : k = k1
      · have hfs : lookupField k fs = none := by
          rw [lookupField_none]
          cases hcv : containsField k fs
          · rfl
          · exfalso
            rw [containsField_iff] at hcv
            rw [fieldNames_cons] at hsL
            have := head_not_in_tail lawful_strLt hsL
            simp only [FieldC.name] at this
            rw [hk] at hcv
            exact this hcv
        have hgs : lookupField k gs = none := by
          rw [lookupField_none]
          cases hcv : containsField k gs
          · rfl
          · exfalso
            rw [containsField_iff] at hcv
            rw [fieldNames_cons] at hsR
            have := head_not_in_tail lawful_strLt hsR
            simp only [FieldC.name] at this
            rw [hk, hng] at hcv
            exact this hcv
        rw [hfs, hgs]
        trivial
      · have := hrel k
        simp only [lookupField, FieldC.name, hk] at this
        rw [if_neg ?_, if_neg ?_] at this
        · exact this
        · rw [← hng]
          exact fun hh => hk hh.symm
        · exact fun hh => hk hh.symm

theorem joinOpt_isNone2 (j : α → α → α) (x y : Option α) :
    (joinOpt j x y).isNone = (x.isNone && y.isNone) := by
  cases x <;> cases y <;> rfl

theorem joinOptArr_isNone2 (x y : Option ArrC) :
    (joinOptArr x y).isNone = (x.isNone && y.isNone) := by
  cases x <;> cases y <;> rfl

theorem joinOptObj_isNone2 (x y : Option ObjC) :
    (joinOptObj x y).isNone = (x.isNone && y.isNone) := by
  cases x <;> cases y <;> rfl

theorem joinField_nin (x y : FieldC) :
    (joinField x y).non_null_in = x.non_null_in + y.non_null_in := by
  obtain ⟨k1, t1, p1, n1⟩ := x
  obtain ⟨k2, t2, p2, n2⟩ := y
  rfl

theorem joinField_ty (x y : FieldC) : (joinField x y).ty = join x.ty y.ty := by
  obtain ⟨k1, t1, p1, n1⟩ := x
  obtain ⟨k2, t2, p2, n2⟩ := y
  rfl

theorem lookup_mem_names (k : String) (l : List FieldC) :
    (∃ f, lookupField k l = some f) ↔ k ∈ fieldNames l := by
  constructor
  · rintro ⟨f, hf⟩
    rw [← containsField_iff]
    cases hc : containsField k l
    · have := (lookupField_none k l).mpr hc
      rw [this] at hf
      cases hf
    · rfl
  · intro hm
    cases hl : lookupField k l with
    | some f => exact ⟨f, rfl⟩
    | none =>
      rw [lookupField_none] at hl
      rw [← containsField_iff] at hm
      rw [hl] at hm
      exact absurd hm (by simp)

theorem rel_names_eq {p : Policy} {FL FR : List FieldC}
    (hsL : sortedSet strLt (fieldNames FL) = true)
    (hsR : sortedSet strLt (fieldNames FR) = true)
    (hrel : ∀ k, OptFieldRel p (lookupField k FL) (lookupField k FR)) :
    fieldNames FL = fieldNames FR := by
  refine sortedSet_ext lawful_strLt hsL hsR ?_
  intro x
  have hx := hrel x
  rw [← lookup_mem_names, ← lookup_mem_names]
  constructor
  · rintro ⟨f, hf⟩
    rw [hf] at hx
    cases hR2 : lookupField x FR with
    | none =>
      rw [hR2] at hx
      exact absurd hx (by simp [OptFieldRel])
    | some g => exact ⟨g, rfl⟩
  · rintro ⟨g, hg⟩
    rw [hg] at hx
    cases hL2 : lookupField x FL with
    | none =>
      rw [hL2] at hx
      exact absurd hx (by simp [OptFieldRel])
    | some f => exact ⟨f, rfl⟩

theorem armsArr_congr (p : Policy) (lm lx smp : Nat) (pres nnl : List Nat)
    (itL itR : U) (colsL colsR : List U)
    (hlen : colsL.length = colsR.length)
    (hit : normalize_to_norm p itL = normalize_to_norm p itR)
    (hcols : normCols p colsL = normCols p colsR) :
    armsArr p (some (.mk lm lx itL colsL pres nnl smp))
      = armsArr p (some (.mk lm lx itR colsR pres nnl smp)) := by
  have hdt : decide_tuple (.mk lm lx itL colsL pres nnl smp)
      = decide_tuple (.mk lm lx itR colsR pres nnl smp) := by
    simp only [decide_tuple, ArrC.samples, ArrC.cols, ArrC.present,
      ArrC.non_null, ArrC.len_min, ArrC.len_max]
    rw [hlen, isEmpty_of_length hlen]
  simp only [armsArr]
  rw [hdt, hit, hcols]

/-- Join associativity modulo normalization, for policies with string enums
and grex synthesis disabled, on points satisfying the structural invariant. -/
theorem norm_join_assoc (p : Policy) (hse : p.enable_string_enums = false)
    (hgx : p.enable_grex = false) :
    ∀ a b c, InvU a = true → InvU b = true → InvU c = true →
      normalize_to_norm p (join (join a b) c)
        = normalize_to_norm p (join a (join b c)) := by
  refine strongIndU3 (fun a b c => InvU a = true → InvU b = true →
    InvU c = true → normalize_to_norm p (join (join a b) c)
      = normalize_to_norm p (join a (join b c))) ?_
  intro a b c IH hIa hIb hIc
  obtain ⟨nl1, hb1, on1, os1, oa1, oo1⟩ := a
  obtain ⟨nl2, hb2, on2, os2, oa2, oo2⟩ := b
  obtain ⟨nl3, hb3, on3, os3, oa3, oo3⟩ := c
  simp only [InvU, Bool.and_eq_true] at hIa hIb hIc
  obtain ⟨⟨⟨_, _⟩, ha1⟩, ho1⟩ := hIa
  obtain ⟨⟨⟨_, _⟩, ha2⟩, ho2⟩ := hIb
  obtain ⟨⟨⟨_, _⟩, ha3⟩, ho3⟩ := hIc
  have hN : armsNum (joinOpt join_num (joinOpt join_num on1 on2) on3)
      = armsNum (joinOpt join_num on1 (joinOpt join_num on2 on3)) := by
    cases on1 <;> cases on2 <;> cases on3 <;>
      simp [joinOpt, armsNum, numArm_join_assoc]
  have hS : armsStr p (joinOpt join_str (joinOpt join_str os1 os2) os3)
      = armsStr p (joinOpt join_str os1 (joinOpt join_str os2 os3)) := by
    cases os1 with
    | none => cases os2 <;> cases os3 <;> rfl
    | some x =>
      cases os2 with
      | none => cases os3 <;> rfl
      | some y =>
        cases os3 with
        | none => rfl
        | some z =>
          show [strArm p (join_str (join_str x y) z)]
              = [strArm p (join_str x (join_str y z))]
          rw [strArm_ff hse hgx, strArm_ff hse hgx, join_str_is_uri,
            join_str_is_uri, join_str_is_uri, join_str_is_uri, Bool.and_assoc]
  have hB : armsBool ((hb1 || hb2) || hb3) = armsBool (hb1 || (hb2 || hb3)) := by
    rw [Bool.or_assoc]
  have hA : armsArr p (joinOptArr (joinOptArr oa1 oa2) oa3)
      = armsArr p (joinOptArr oa1 (joinOptArr oa2 oa3)) := by
    cases oa1 with
    | none => cases oa2 <;> cases oa3 <;> rfl
    | some A =>
      cases oa2 with
      | none => cases oa3 <;> rfl
      | some B =>
        cases oa3 with
        | none => rfl
        | some C =>
          obtain ⟨lm1, lx1, it1, c1, p1, n1, s1⟩ := A
          obtain ⟨lm2, lx2, it2, c2, p2, n2, s2⟩ := B
          obtain ⟨lm3, lx3, it3, c3, p3, n3, s3⟩ := C
          simp only [InvArrOpt, InvArr, Bool.and_eq_true, beq_iff_eq]
            at ha1 ha2 ha3
          obtain ⟨⟨⟨hp1, hn1⟩, hit1⟩, hc1⟩ := ha1
          obtain ⟨⟨⟨hp2, hn2⟩, hit2⟩, hc2⟩ := ha2
          obtain ⟨⟨⟨hp3, hn3⟩, hit3⟩, hc3⟩ := ha3
          have hit : normalize_to_norm p (join (join it1 it2) it3)
              = normalize_to_norm p (join it1 (join it2 it3)) := by
            refine IH it1 it2 it3 ?_ hit1 hit2 hit3
            have e1 := sizeOf_item_lt nl1 hb1 on1 os1 oo1 lm1 lx1 it1 c1 p1 n1 s1
            have e2 := sizeOf_item_lt nl2 hb2 on2 os2 oo2 lm2 lx2 it2 c2 p2 n2 s2
            have e3 := sizeOf_item_lt nl3 hb3 on3 os3 oo3 lm3 lx3 it3 c3 p3 n3 s3
            omega
          have hcols : normCols p (joinCols (joinCols c1 c2) c3)
              = normCols p (joinCols c1 (joinCols c2 c3)) := by
            have aux : ∀ (xs : List U), (∀ x ∈ xs, x ∈ c1) →
                ∀ (ys zs : List U), (∀ y ∈ ys, y ∈ c2) → (∀ z ∈ zs, z ∈ c3) →
                normCols p (joinCols (joinCols xs ys) zs)
                  = normCols p (joinCols xs (joinCols ys zs)) := by
              intro xs
              induction xs with
              | nil =>
                intro _ ys zs _ _
                rw [joinCols_nil_left, joinCols_map_padNull_left,
                  joinCols_nil_left]
              | cons x xs2 ihx =>
                intro hxs ys zs hys hzs
                cases ys with
                | nil =>
                  rw [joinCols_nil_right, joinCols_map_padNull_left,
                    joinCols_nil_left, joinCols_map_padNull_right]
                | cons y ys2 =>
                  cases zs with
                  | nil =>
                    rw [joinCols_nil_right, joinCols_nil_right,
                      joinCols_map_padNull_right]
                  | cons z zs2 =>
                    show normCols p (join (join x y) z
                          :: joinCols (joinCols xs2 ys2) zs2)
                        = normCols p (join x (join y z)
                          :: joinCols xs2 (joinCols ys2 zs2))
                    have hx := hxs x (List.mem_cons_self _ _)
                    have hy := hys y (List.mem_cons_self _ _)
                    have hz := hzs z (List.mem_cons_self _ _)
                    have hhead : normalize_to_norm p (join (join x y) z)
                        = normalize_to_norm p (join x (join y z)) := by
                      refine IH x y z ?_ (InvCols_mem hc1 hx) (InvCols_mem hc2 hy)
                        (InvCols_mem hc3 hz)
                      have e1 := sizeOf_col_lt nl1 hb1 on1 os1 oo1 lm1 lx1 it1
                        c1 p1 n1 s1 hx
                      have e2 := sizeOf_col_lt nl2 hb2 on2 os2 oo2 lm2 lx2 it2
                        c2 p2 n2 s2 hy
                      have e3 := sizeOf_col_lt nl3 hb3 on3 os3 oo3 lm3 lx3 it3
                        c3 p3 n3 s3 hz
                      omega
                    simp only [normCols]
                    rw [hhead,
                      ihx (fun w hw => hxs w (List.mem_cons_of_mem _ hw)) ys2 zs2
                        (fun w hw => hys w (List.mem_cons_of_mem _ hw))
                        (fun w hw => hzs w (List.mem_cons_of_mem _ hw))]
            exact aux c1 (fun _ h => h) c2 c3 (fun _ h => h) (fun _ h => h)
          show armsArr p (some (join_arr (join_arr (.mk lm1 lx1 it1 c1 p1 n1 s1)
                (.mk lm2 lx2 it2 c2 p2 n2 s2)) (.mk lm3 lx3 it3 c3 p3 n3 s3)))
              = armsArr p (some (join_arr (.mk lm1 lx1 it1 c1 p1 n1 s1)
                (join_arr (.mk lm2 lx2 it2 c2 p2 n2 s2)
                  (.mk lm3 lx3 it3 c3 p3 n3 s3))))
          simp only [join_arr, joinCols_length]
          rw [countsAt_assoc c1.length c2.length c3.length p1 p2 p3 hp1 hp2 hp3,
            countsAt_assoc c1.length c2.length c3.length n1 n2 n3 hn1 hn2 hn3,
            Nat.min_assoc, Nat.max_assoc, Nat.add_assoc]
          refine armsArr_congr p _ _ _ _ _ _ _ _ _ ?_ hit hcols
          rw [joinCols_length, joinCols_length, joinCols_length, joinCols_length,
            Nat.max_assoc]
  have hO : armsObj p (joinOptObj (joinOptObj oo1 oo2) oo3)
      = armsObj p (joinOptObj oo1 (joinOptObj oo2 oo3)) := by
    cases oo1 with
    | none => cases oo2 <;> cases oo3 <;> rfl
    | some O1 =>
      cases oo2 with
      | none => cases oo3 <;> rfl
      | some O2 =>
        cases oo3 with
        | none => rfl
        | some O3 =>
          obtain ⟨f1, s1⟩ := O1
          obtain ⟨f2, s2⟩ := O2
          obtain ⟨f3, s3⟩ := O3
          simp only [InvObjOpt, InvObj, ObjC.fields, Bool.and_eq_true]
            at ho1 ho2 ho3
          obtain ⟨hsf1, hif1⟩ := ho1
          obtain ⟨hsf2, hif2⟩ := ho2
          obtain ⟨hsf3, hif3⟩ := ho3
          have hsL : sortedSet strLt
              (fieldNames (joinFields (joinFields f1 f2) f3)) = true :=
            sorted_joinFields f3 (sorted_joinFields f2 hsf1)
          have hsR : sortedSet strLt
              (fieldNames (joinFields f1 (joinFields f2 f3))) = true :=
            sorted_joinFields (joinFields f2 f3) hsf1
          have hrel : ∀ k, OptFieldRel p
              (lookupField k (joinFields (joinFields f1 f2) f3))
              (lookupField k (joinFields f1 (joinFields f2 f3))) := by
            intro k
            rw [lookupField_joinFields k _ f3 (sorted_joinFields f2 hsf1),
              lookupField_joinFields k f1 f2 hsf1,
              lookupField_joinFields k f1 _ hsf1,
              lookupField_joinFields k f2 f3 hsf2]
            cases h1 : lookupField k f1 with
            | none =>
              cases h2 : lookupField k f2 <;> cases h3 : lookupField k f3 <;>
                first
                | trivial
                | exact ⟨rfl, rfl⟩
            | some f =>
              cases h2 : lookupField k f2 with
              | none =>
                cases h3 : lookupField k f3 <;>
                  first
                  | trivial
                  | exact ⟨rfl, rfl⟩
              | some g =>
                cases h3 : lookupField k f3 with
                | none => exact ⟨rfl, rfl⟩
                | some h =>
                  refine ⟨?_, ?_⟩
                  · rw [joinField_nin, joinField_nin, joinField_nin,
                      joinField_nin, Nat.add_assoc]
                  · rw [joinField_ty, joinField_ty, joinField_ty, joinField_ty]
                    refine IH f.ty g.ty h.ty ?_
                      (InvFields_mem hif1 (lookupField_mem h1))
                      (InvFields_mem hif2 (lookupField_mem h2))
                      (InvFields_mem hif3 (lookupField_mem h3))
                    have e1 := sizeOf_field_ty_lt nl1 hb1 on1 os1 oa1 f1 s1
                      (lookupField_mem h1)
                    have e2 := sizeOf_field_ty_lt nl2 hb2 on2 os2 oa2 f2 s2
                      (lookupField_mem h2)
                    have e3 := sizeOf_field_ty_lt nl3 hb3 on3 os3 oa3 f3 s3
                      (lookupField_mem h3)
                    omega
          have hnames := rel_names_eq hsL hsR hrel
          have hflds := normFieldsCore_eq p (s1 + (s2 + s3)) _ _ hnames hsL hsR hrel
          show armsObj p (some (.mk (joinFields (joinFields f1 f2) f3)
                (s1 + s2 + s3)))
              = armsObj p (some (.mk (joinFields f1 (joinFields f2 f3))
                (s1 + (s2 + s3))))
          rw [Nat.add_assoc]
          simp only [armsObj]
          rw [hflds]
  have hnull : (U.mk ((nl1 || nl2) || nl3) ((hb1 || hb2) || hb3)
        (joinOpt join_num (joinOpt join_num on1 on2) on3)
        (joinOpt join_str (joinOpt join_str os1 os2) os3)
        (joinOptArr (joinOptArr oa1 oa2) oa3)
        (joinOptObj (joinOptObj oo1 oo2) oo3)).is_exact_null
      = (U.mk (nl1 || (nl2 || nl3)) (hb1 || (hb2 || hb3))
        (joinOpt join_num on1 (joinOpt join_num on2 on3))
        (joinOpt join_str os1 (joinOpt join_str os2 os3))
        (joinOptArr oa1 (joinOptArr oa2 oa3))
        (joinOptObj oo1 (joinOptObj oo2 oo3))).is_exact_null := by
    simp only [U.is_exact_null, U.nullable, U.has_bool, U.num, U.str_, U.arr,
      U.obj, joinOpt_isNone2, joinOptArr_isNone2, joinOptObj_isNone2,
      Bool.or_assoc, Bool.and_assoc]
  have hL : join (join (U.mk nl1 hb1 on1 os1 oa1 oo1) (U.mk nl2 hb2 on2 os2 oa2 oo2))
        (U.mk nl3 hb3 on3 os3 oa3 oo3)
      = U.mk ((nl1 || nl2) || nl3) ((hb1 || hb2) || hb3)
        (joinOpt join_num (joinOpt join_num on1 on2) on3)
        (joinOpt join_str (joinOpt join_str os1 os2) os3)
        (joinOptArr (joinOptArr oa1 oa2) oa3)
        (joinOptObj (joinOptObj oo1 oo2) oo3) := rfl
  have hR : join (U.mk nl1 hb1 on1 os1 oa1 oo1)
        (join (U.mk nl2 hb2 on2 os2 oa2 oo2) (U.mk nl3 hb3 on3 os3 oa3 oo3))
      = U.mk (nl1 || (nl2 || nl3)) (hb1 || (hb2 || hb3))
        (joinOpt join_num on1 (joinOpt join_num on2 on3))
        (joinOpt join_str os1 (joinOpt join_str os2 os3))
        (joinOptArr oa1 (joinOptArr oa2 oa3))
        (joinOptObj oo1 (joinOptObj oo2 oo3)) := rfl
  rw [hL, hR]
  simp only [normalize_to_norm]
  rw [hnull, hA, hO, hN, hS, hB, Bool.or_assoc]

-- ============================ Claim C2 ==================================== --

theorem Built_foldl :
    ∀ (vs : List Json) (u : U), Built u → (∀ v ∈ vs, wfJson v = true) →
      Built (vs.foldl (fun st v => join st (observe_value v)) u) := by
  intro vs
  induction vs with
  | nil => intro u hb _; exact hb
  | cons v rest ih =>
    intro u hb hwf
    rw [List.foldl_cons]
    exact ih _ (Built.joined _ _ hb (Built.obs v (hwf v (List.mem_cons_self _ _))))
      (fun w hw => hwf w (List.mem_cons_of_mem _ hw))

theorem Built_infer_state (v : Json) (vs : List Json)
    (hwf : ∀ w ∈ v :: vs, wfJson w = true) : Built (infer_state (v :: vs)) := by
  rw [infer_state, List.foldl_cons, join_empty_left]
  exact Built_foldl vs _ (Built.obs v (hwf v (List.mem_cons_self _ _)))
    (fun w hw => hwf w (List.mem_cons_of_mem _ hw))

/-- A corpus of 64 distinct string literals, filling the `MAX_STR_LITS` cap. -/
def c2_lits : List Json :=
  [.str "w00", .str "w01", .str "w02", .str "w03", .str "w04", .str "w05", .str "w06", .str "w07", .str "w08", .str "w09", .str "w10", .str "w11", .str "w12", .str "w13", .str "w14", .str "w15", .str "w16", .str "w17", .str "w18", .str "w19", .str "w20", .str "w21", .str "w22", .str "w23", .str "w24", .str "w25", .str "w26", .str "w27", .str "w28", .str "w29", .str "w30", .str "w31", .str "w32", .str "w33", .str "w34", .str "w35", .str "w36", .str "w37", .str "w38", .str "w39", .str "w40", .str "w41", .str "w42", .str "w43", .str "w44", .str "w45", .str "w46", .str "w47", .str "w48", .str "w49", .str "w50", .str "w51", .str "w52", .str "w53", .str "w54", .str "w55", .str "w56", .str "w57", .str "w58", .str "w59", .str "w60", .str "w61", .str "w62", .str "w63"]

set_option maxRecDepth 8000 in
/-- Claim C2, counterexample: with string enums enabled, the two association
orders of the same three built points normalize differently.  The left order
crosses the 64-literal cap when the 64-literal point joins `"yy"` (clearing
the set), then re-collects `["zz"]`; the right order crosses the cap at the
outer join, ending empty — so one side emits a one-element string enum and the
other a plain string. -/
theorem c2_counterexample :
    Built (infer_state c2_lits) ∧ Built (observe_value (Json.str "yy"))
    ∧ Built (observe_value (Json.str "zz"))
    ∧ normalize_to_norm pEnumsOn
        (join (join (infer_state c2_lits) (observe_value (Json.str "yy")))
          (observe_value (Json.str "zz")))
      ≠ normalize_to_norm pEnumsOn
        (join (infer_state c2_lits)
          (join (observe_value (Json.str "yy")) (observe_value (Json.str "zz")))) := by
  refine ⟨?_, Built.obs _ rfl, Built.obs _ rfl, ?_⟩
  · exact Built_infer_state _ _ (by decide)
  · intro h
    have hL : normalize_to_norm pEnumsOn
        (join (join (infer_state c2_lits) (observe_value (Json.str "yy")))
          (observe_value (Json.str "zz")))
        = NTy.string ["zz"] none false := by rfl
    have hR : normalize_to_norm pEnumsOn
        (join (infer_state c2_lits)
          (join (observe_value (Json.str "yy")) (observe_value (Json.str "zz"))))
        = NTy.string [] none false := by rfl
    rw [hL, hR] at h
    simp at h

/-- Claim C2 (amended): for policies with string enums and grex synthesis
disabled — where normalization does not inspect the capped literal sets — join
is associative modulo normalization on all points built from observed JSON
values, even though the raw `U` values differ across reduction topologies. -/
theorem c2_normalize_join_assoc (p : Policy)
    (hse : p.enable_string_enums = false) (hgx : p.enable_grex = false)
    (a b c : U) (hba : Built a) (hbb : Built b) (hbc : Built c) :
    normalize_to_norm p (join (join a b) c)
      = normalize_to_norm p (join a (join b c)) :=
  norm_join_assoc p hse hgx a b c (Built_Inv hba) (Built_Inv hbb) (Built_Inv hbc)

/-- Concrete run of the amended associativity on three observations of
different kinds under the flags-off policy valuation. -/
theorem c2_witness :
    normalize_to_norm pFlagsOff
        (join (join (observe_value (Json.str "aa")) (observe_value Json.null))
          (observe_value (Json.bool true)))
      = normalize_to_norm pFlagsOff
        (join (observe_value (Json.str "aa"))
          (join (observe_value Json.null) (observe_value (Json.bool true)))) :=
  c2_normalize_join_assoc pFlagsOff rfl rfl _ _ _
    (Built.obs _ rfl) (Built.obs _ rfl) (Built.obs _ rfl)

end JsonOsi
